import Mathlib

/-!
# CodeCollab: the WebSocket hub and its Kafka envelope

A shallow embedding of `internal/websocket` (hub.go, room.go, client.go,
ws_handler.go) and of the envelope exchanged with Kafka (hub.go, consumer.go),
followed by theorems about one iteration of `Hub.Run` and about runs of it.

Conventions of the embedding.

* A Go `[]byte` and a Go `string` are both `Bytes`, a list of bytes; a byte is a
  natural number below 256.
* A `*Client` is a `Client` value: `ptr` stands for the address, `RoomID` for the
  field that is never written after `HandleConnections` builds the client.
* The channel `client.send` lives in the heap, which the embedding keeps with the hub:
  `Hub.send`. A value of `Hub`, the hub with that heap, is called a world.
* A Go map is a total function into `Option` (`Hub.rooms`) or the list of its keys
  without repetition (`Room.clients`).
* One iteration of the `for { select { ... } }` loop of `Hub.Run` is `step`; the
  calls it makes (`Publish`, channel sends, `close`, `log.Printf`) are returned as a
  list of `Action`s, and a Go runtime panic as `Outcome.panic`.
* `json.Marshal`, `json.Unmarshal` and the functions of unicode/utf8 they call belong to
  the Go standard library. They are embedded after their Go source: `appendString`, the
  scanner states of a string literal, `unquoteBytes`, `getu4`, `DecodeRune`, `EncodeRune`.
-/

set_option maxRecDepth 100000

namespace CodeCollab

/-! ## Bytes -/

/-- Go `[]byte` and Go `string`: a sequence of bytes, each a natural number below 256. -/
abbrev Bytes := List Nat

/-- The bytes of an ASCII literal. -/
def asciiBytes (s : String) : Bytes := s.toList.map Char.toNat

/-! ## unicode/utf8 (Go standard library), as far as encoding/json uses it -/

/-- Go `utf8.RuneError`, U+FFFD. -/
def RuneError : Nat := 0xFFFD

/-- Go `utf8.MaxRune`, U+10FFFF. -/
def MaxRune : Nat := 0x10FFFF

/-- The `first` table of unicode/utf8 together with `acceptRanges`: for the leading byte
of a multi-byte sequence, the length of the sequence and the accepted range of its second
byte; `none` for an ASCII byte and for a byte that cannot start a sequence. -/
def firstInfo (p0 : Nat) : Option (Nat × Nat × Nat) :=
  if 0xC2 ≤ p0 ∧ p0 ≤ 0xDF then some (2, 0x80, 0xBF)
  else if p0 = 0xE0 then some (3, 0xA0, 0xBF)
  else if 0xE1 ≤ p0 ∧ p0 ≤ 0xEC then some (3, 0x80, 0xBF)
  else if p0 = 0xED then some (3, 0x80, 0x9F)
  else if 0xEE ≤ p0 ∧ p0 ≤ 0xEF then some (3, 0x80, 0xBF)
  else if p0 = 0xF0 then some (4, 0x90, 0xBF)
  else if 0xF1 ≤ p0 ∧ p0 ≤ 0xF3 then some (4, 0x80, 0xBF)
  else if p0 = 0xF4 then some (4, 0x80, 0x8F)
  else none

/-- Go `utf8.DecodeRune`: the first rune of `p` and its width in bytes; `(RuneError, 0)`
for empty input and `(RuneError, 1)` for an invalid encoding. `x & 0x3F` is `x % 64`,
`x & 0x1F` is `x % 32`, `x << 6 | y` with `y < 64` is `x * 64 + y`, and so on. -/
def DecodeRune (p : Bytes) : Nat × Nat :=
  match p with
  | [] => (RuneError, 0)
  | p0 :: rest =>
    if p0 < 0x80 then (p0, 1)
    else
      match firstInfo p0 with
      | none => (RuneError, 1)
      | some (sz, lo, hi) =>
        if p.length < sz then (RuneError, 1)
        else
          match rest with
          | [] => (RuneError, 1)
          | b1 :: rest1 =>
            if b1 < lo ∨ hi < b1 then (RuneError, 1)
            else if sz ≤ 2 then ((p0 % 32) * 64 + b1 % 64, 2)
            else
              match rest1 with
              | [] => (RuneError, 1)
              | b2 :: rest2 =>
                if b2 < 0x80 ∨ 0xBF < b2 then (RuneError, 1)
                else if sz ≤ 3 then ((p0 % 16) * 4096 + (b1 % 64) * 64 + b2 % 64, 3)
                else
                  match rest2 with
                  | [] => (RuneError, 1)
                  | b3 :: _ =>
                    if b3 < 0x80 ∨ 0xBF < b3 then (RuneError, 1)
                    else ((p0 % 8) * 262144 + (b1 % 64) * 4096 + (b2 % 64) * 64 + b3 % 64, 4)

/-- The three-byte case of Go `utf8.EncodeRune`. -/
def encode3 (r : Nat) : Bytes :=
  [0xE0 + (r / 4096) % 256, 0x80 + (r / 64) % 64, 0x80 + r % 64]

/-- Go `utf8.EncodeRune` (the bytes written): `t2 | byte(r>>6)` is `0xC0 + r / 64`, and
so on; a surrogate or a value above `MaxRune` is written as `RuneError`. -/
def EncodeRune (r : Nat) : Bytes :=
  if r ≤ 0x7F then [r]
  else if r ≤ 0x7FF then [0xC0 + r / 64, 0x80 + r % 64]
  else if MaxRune < r ∨ (0xD800 ≤ r ∧ r ≤ 0xDFFF) then encode3 RuneError
  else if r ≤ 0xFFFF then encode3 r
  else [0xF0 + (r / 262144) % 256, 0x80 + (r / 4096) % 64, 0x80 + (r / 64) % 64, 0x80 + r % 64]

/-- Go `utf8.Valid` run with `fuel` loop iterations. -/
def validLoop : Nat → Bytes → Bool
  | 0, p => p.isEmpty
  | fuel + 1, p =>
    match p with
    | [] => true
    | p0 :: rest =>
      if p0 < 0x80 then validLoop fuel rest
      else if (DecodeRune p).2 ≤ 1 then false
      else validLoop fuel (p.drop (DecodeRune p).2)

/-- Go `utf8.Valid`: every byte of `p` belongs to a well-formed UTF-8 sequence. Each
iteration consumes at least one byte, so `p.length` iterations are enough. -/
def Valid (p : Bytes) : Bool := validLoop p.length p

/-! ## encoding/json (Go standard library): encoding of strings and of the envelope -/

/-- The digit table `hex` of encoding/json. -/
def hex (n : Nat) : Nat := (asciiBytes "0123456789abcdef").getD n 0

/-- Membership in `htmlSafeSet` of encoding/json: the ASCII bytes written as they are. -/
def htmlSafe (b : Nat) : Bool :=
  decide (0x20 ≤ b ∧ b < 0x80 ∧ b ≠ 0x22 ∧ b ≠ 0x26 ∧ b ≠ 0x3C ∧ b ≠ 0x3E ∧ b ≠ 0x5C)

/-- The `switch b` of `appendString` for an ASCII byte outside `htmlSafeSet`.
`shortBF` tells whether backspace and form feed are written with their short escapes
(Go 1.22 and later) or as `\u0008` and `\u000c` (earlier releases). -/
def escapeByte (shortBF : Bool) (b : Nat) : Bytes :=
  if b = 0x5C ∨ b = 0x22 then [0x5C, b]
  else if b = 0x08 ∧ shortBF then [0x5C, 0x62]
  else if b = 0x0C ∧ shortBF then [0x5C, 0x66]
  else if b = 0x0A then [0x5C, 0x6E]
  else if b = 0x0D then [0x5C, 0x72]
  else if b = 0x09 then [0x5C, 0x74]
  else [0x5C, 0x75, 0x30, 0x30, hex (b / 16), hex (b % 16)]

/-- The loop of `appendString` of encoding/json with `escapeHTML` set, run with `fuel`
iterations: what is written between the two quotes. -/
def appendStringLoop (shortBF : Bool) : Nat → Bytes → Bytes
  | 0, _ => []
  | fuel + 1, src =>
    match src with
    | [] => []
    | b :: rest =>
      if b < 0x80 then
        (if htmlSafe b then [b] else escapeByte shortBF b) ++ appendStringLoop shortBF fuel rest
      else
        let cs := DecodeRune src
        if cs.1 = RuneError ∧ cs.2 = 1 then
          asciiBytes "\\ufffd" ++ appendStringLoop shortBF fuel rest
        else if cs.1 = 0x2028 ∨ cs.1 = 0x2029 then
          asciiBytes "\\u202" ++ [hex (cs.1 % 16)] ++ appendStringLoop shortBF fuel (src.drop cs.2)
        else
          src.take cs.2 ++ appendStringLoop shortBF fuel (src.drop cs.2)

/-- Go `appendString(dst, src, true)` of encoding/json: `src` as a JSON string literal.
Each iteration consumes at least one byte of `src`. -/
def appendString (shortBF : Bool) (src : Bytes) : Bytes :=
  [0x22] ++ appendStringLoop shortBF src.length src ++ [0x22]

/-- Go `json.Marshal(map[string]string{"room_id": roomID, "message": message})`: an
object whose members come in the sorted order of the keys. -/
def marshalEnvelope (shortBF : Bool) (roomID message : Bytes) : Bytes :=
  [0x7B] ++ appendString shortBF (asciiBytes "message") ++ [0x3A] ++ appendString shortBF message
    ++ [0x2C] ++ appendString shortBF (asciiBytes "room_id") ++ [0x3A] ++ appendString shortBF roomID
    ++ [0x7D]

/-! ## encoding/json (Go standard library): decoding of the envelope

`json.Unmarshal` is embedded on the inputs the envelope needs: an object whose keys are
the two JSON names of `KafkaMessage` and whose values are string literals, with optional
white space. On any other input `Unmarshal` answers `notModelled`. -/

/-- The struct `KafkaMessage` (consumer.go), tagged `room_id` and `message`. -/
structure KafkaMessage where
  RoomID : Bytes
  Message : Bytes
deriving DecidableEq, Repr

/-- Go `isSpace` of the scanner of encoding/json. -/
def isSpace (c : Nat) : Bool := decide (c = 0x20 ∨ c = 0x09 ∨ c = 0x0D ∨ c = 0x0A)

/-- The scanner skips white space. -/
def skipSpace : Bytes → Bytes
  | [] => []
  | c :: rest => if isSpace c then skipSpace rest else c :: rest

/-- The value of a hexadecimal digit, as in `getu4`. -/
def hexValue (c : Nat) : Option Nat :=
  if 0x30 ≤ c ∧ c ≤ 0x39 then some (c - 0x30)
  else if 0x61 ≤ c ∧ c ≤ 0x66 then some (c - 0x61 + 10)
  else if 0x41 ≤ c ∧ c ≤ 0x46 then some (c - 0x41 + 10)
  else none

/-- The states of the scanner of encoding/json inside a string literal:
`stateInString`, `stateInStringEsc`, `stateInStringEscU`, `stateInStringEscU1`,
`stateInStringEscU12`, `stateInStringEscU123`. -/
inductive StringState where
  | inString
  | esc
  | escU
  | escU1
  | escU12
  | escU123
deriving DecidableEq, Repr

/-- The scanner of encoding/json from just after the opening quote of a string literal:
the bytes of the literal up to its closing quote and the input after that quote; `none`
for what the scanner rejects (a control character, a wrong escape, no closing quote). -/
def scanString : StringState → Bytes → Option (Bytes × Bytes)
  | _, [] => none
  | .inString, c :: rest =>
    if c = 0x22 then some ([], rest)
    else if c = 0x5C then (scanString .esc rest).map fun r => (c :: r.1, r.2)
    else if c < 0x20 then none
    else (scanString .inString rest).map fun r => (c :: r.1, r.2)
  | .esc, c :: rest =>
    if c = 0x62 ∨ c = 0x66 ∨ c = 0x6E ∨ c = 0x72 ∨ c = 0x74 ∨ c = 0x5C ∨ c = 0x2F ∨ c = 0x22 then
      (scanString .inString rest).map fun r => (c :: r.1, r.2)
    else if c = 0x75 then (scanString .escU rest).map fun r => (c :: r.1, r.2)
    else none
  | .escU, c :: rest =>
    if (hexValue c).isSome then (scanString .escU1 rest).map fun r => (c :: r.1, r.2) else none
  | .escU1, c :: rest =>
    if (hexValue c).isSome then (scanString .escU12 rest).map fun r => (c :: r.1, r.2) else none
  | .escU12, c :: rest =>
    if (hexValue c).isSome then (scanString .escU123 rest).map fun r => (c :: r.1, r.2) else none
  | .escU123, c :: rest =>
    if (hexValue c).isSome then (scanString .inString rest).map fun r => (c :: r.1, r.2) else none

/-- Go `getu4` of encoding/json: the number written by `\u` and four hexadecimal digits at
the start of `s`; `none` where Go returns -1. -/
def getu4 (s : Bytes) : Option Nat :=
  match s with
  | 0x5C :: 0x75 :: a :: b :: c :: d :: _ =>
    match hexValue a, hexValue b, hexValue c, hexValue d with
    | some x, some y, some z, some t => some (((x * 16 + y) * 16 + z) * 16 + t)
    | _, _, _, _ => none
  | _ => none

/-- Go `utf16.DecodeRune`: the code point of a surrogate pair, U+FFFD for anything else. -/
def utf16DecodeRune (r1 r2 : Nat) : Nat :=
  if 0xD800 ≤ r1 ∧ r1 < 0xDC00 ∧ 0xDC00 ≤ r2 ∧ r2 < 0xE000 then
    (r1 - 0xD800) * 1024 + (r2 - 0xDC00) + 0x10000
  else RuneError

/-- The first loop of `unquoteBytes` of encoding/json, run with `fuel` iterations: the
length of the longest prefix that has no backslash, no quote, no control character and no
invalid UTF-8. -/
def plainLen : Nat → Bytes → Nat
  | 0, _ => 0
  | fuel + 1, s =>
    match s with
    | [] => 0
    | c :: rest =>
      if c = 0x5C ∨ c = 0x22 ∨ c < 0x20 then 0
      else if c < 0x80 then 1 + plainLen fuel rest
      else if (DecodeRune s).1 = RuneError ∧ (DecodeRune s).2 = 1 then 0
      else (DecodeRune s).2 + plainLen fuel (s.drop (DecodeRune s).2)

/-- The second loop of `unquoteBytes` of encoding/json, run with `fuel` iterations: the
bytes it writes for `s`, `none` where Go returns `ok = false`. -/
def unquoteLoop : Nat → Bytes → Option Bytes
  | 0, s => if s.isEmpty then some [] else none
  | fuel + 1, s =>
    match s with
    | [] => some []
    | c :: rest =>
      if c = 0x5C then
        match rest with
        | [] => none
        | d :: rest2 =>
          if d = 0x22 ∨ d = 0x5C ∨ d = 0x2F ∨ d = 0x27 then
            (unquoteLoop fuel rest2).map fun t => d :: t
          else if d = 0x62 then (unquoteLoop fuel rest2).map fun t => 0x08 :: t
          else if d = 0x66 then (unquoteLoop fuel rest2).map fun t => 0x0C :: t
          else if d = 0x6E then (unquoteLoop fuel rest2).map fun t => 0x0A :: t
          else if d = 0x72 then (unquoteLoop fuel rest2).map fun t => 0x0D :: t
          else if d = 0x74 then (unquoteLoop fuel rest2).map fun t => 0x09 :: t
          else if d = 0x75 then
            match getu4 s with
            | none => none
            | some rr =>
              if 0xD800 ≤ rr ∧ rr < 0xE000 then
                let dec := match getu4 (s.drop 6) with
                  | some rr1 => utf16DecodeRune rr rr1
                  | none => RuneError
                if dec ≠ RuneError then
                  (unquoteLoop fuel (s.drop 12)).map fun t => EncodeRune dec ++ t
                else (unquoteLoop fuel (s.drop 6)).map fun t => EncodeRune RuneError ++ t
              else (unquoteLoop fuel (s.drop 6)).map fun t => EncodeRune rr ++ t
          else none
      else if c = 0x22 ∨ c < 0x20 then none
      else if c < 0x80 then (unquoteLoop fuel rest).map fun t => c :: t
      else
        (unquoteLoop fuel (s.drop (DecodeRune s).2)).map fun t => EncodeRune (DecodeRune s).1 ++ t

/-- Go `unquoteBytes` of encoding/json on the bytes between the quotes of a literal: the
string the literal stands for. Each iteration of either loop consumes at least one byte. -/
def unquote (s : Bytes) : Option Bytes :=
  if plainLen s.length s = s.length then some s
  else (unquoteLoop s.length (s.drop (plainLen s.length s))).map fun t =>
    s.take (plainLen s.length s) ++ t

/-- A string literal at the start of the input: the string it stands for and the input
after its closing quote. -/
def parseString (input : Bytes) : Option (Bytes × Bytes) :=
  match input with
  | [] => none
  | c :: rest =>
    if c = 0x22 then
      match scanString .inString rest with
      | none => none
      | some r => (unquote r.1).map fun t => (t, r.2)
    else none

/-- What `json.Unmarshal(data, &km)` gives: `ok` with the struct filled in, `err` for a
non-nil error, `notModelled` for an input outside the embedded part of encoding/json. -/
inductive Unmarshaled where
  | ok (km : KafkaMessage)
  | err
  | notModelled
deriving DecidableEq, Repr

/-- The members of an object from the first byte of a key on, run with `fuel` members:
each is a key, a colon and a string value; a key sets the field of `km` it names, a
later one overriding an earlier one; after the closing brace only white space follows. -/
def unmarshalMembers : Nat → KafkaMessage → Bytes → Unmarshaled
  | 0, _, _ => .notModelled
  | fuel + 1, km, input =>
    match parseString input with
    | none => .err
    | some (key, rest) =>
      match skipSpace rest with
      | [] => .err
      | colon :: rest2 =>
        if colon ≠ 0x3A then .err
        else
          match skipSpace rest2 with
          | [] => .err
          | q :: rest3 =>
            if q ≠ 0x22 then .notModelled
            else
              match parseString (q :: rest3) with
              | none => .err
              | some (val, rest4) =>
                if key ≠ asciiBytes "room_id" ∧ key ≠ asciiBytes "message" then .notModelled
                else
                  let km2 : KafkaMessage :=
                    if key = asciiBytes "room_id" then { km with RoomID := val }
                    else { km with Message := val }
                  match skipSpace rest4 with
                  | [] => .err
                  | sep :: rest5 =>
                    if sep = 0x2C then unmarshalMembers fuel km2 (skipSpace rest5)
                    else if sep = 0x7D then
                      (if (skipSpace rest5).isEmpty then .ok km2 else .err)
                    else .err

/-- Go `json.Unmarshal(data, &km)` with `km` the zero `KafkaMessage`, on the inputs
described above. An object has fewer members than bytes. -/
def Unmarshal (data : Bytes) : Unmarshaled :=
  match skipSpace data with
  | [] => .err
  | c :: rest =>
    if c ≠ 0x7B then .notModelled
    else
      match skipSpace rest with
      | [] => .err
      | d :: rest2 =>
        if d = 0x7D then (if (skipSpace rest2).isEmpty then .ok ⟨[], []⟩ else .err)
        else unmarshalMembers data.length ⟨[], []⟩ (d :: rest2)

/-- The members of a JSON object from the first byte of a key on, run with `fuel` members,
for an object whose values are string literals: every key with its value, in the order
of the text, each read by the scanner and `unquoteBytes` as `parseString` does; `none` for
any other input. It names no field: it tells which members an envelope has. -/
def objectMembers : Nat → Bytes → Option (List (Bytes × Bytes))
  | 0, _ => none
  | fuel + 1, input =>
    match parseString input with
    | none => none
    | some (key, rest) =>
      match skipSpace rest with
      | [] => none
      | colon :: rest2 =>
        if colon ≠ 0x3A then none
        else
          match parseString (skipSpace rest2) with
          | none => none
          | some (val, rest4) =>
            match skipSpace rest4 with
            | [] => none
            | sep :: rest5 =>
              if sep = 0x2C then
                (objectMembers fuel (skipSpace rest5)).map fun ms => (key, val) :: ms
              else if sep = 0x7D then
                (if (skipSpace rest5).isEmpty then some [(key, val)] else none)
              else none

/-- The members of the JSON object `data`, all of whose values are string literals: the
list of its keys and values. An object has fewer members than bytes. -/
def jsonObject (data : Bytes) : Option (List (Bytes × Bytes)) :=
  match skipSpace data with
  | [] => none
  | c :: rest =>
    if c ≠ 0x7B then none
    else
      match skipSpace rest with
      | [] => none
      | d :: rest2 =>
        if d = 0x7D then (if (skipSpace rest2).isEmpty then some [] else none)
        else objectMembers data.length (d :: rest2)

/-! ## internal/websocket: clients, channels, rooms -/

/-- A `*Client` (client.go): `ptr` is the address, `RoomID` the room the client was built
for. The fields `hub` and `conn` play no part in `Hub.Run`; `send` is `Hub.send`. -/
structure Client where
  ptr : Nat
  RoomID : Bytes
deriving DecidableEq, Repr

/-- A Go `chan []byte`: its capacity, the items buffered and not yet received, and
whether it has been closed. -/
structure Chan where
  cap : Nat
  buf : List Bytes
  closed : Bool
deriving DecidableEq, Repr

/-- Go `make(chan []byte, cap)`. -/
def makeChan (cap : Nat) : Chan := { cap := cap, buf := [], closed := false }

/-- A `Room` (room.go): `clients` lists the keys of `map[*Client]bool`. -/
structure Room where
  ID : Bytes
  clients : List Client
deriving DecidableEq, Repr

/-- Go `NewRoom` (room.go). -/
def NewRoom (id : Bytes) : Room := { ID := id, clients := [] }

/-- A `MessageEvent` (hub.go). -/
structure MessageEvent where
  RoomID : Bytes
  Message : Bytes
  FromKafka : Bool
deriving DecidableEq, Repr

/-- The Go runtime panics a channel operation of `Hub.Run` can raise. -/
inductive Panic where
  | closeOfClosedChannel
  | sendOnClosedChannel
deriving DecidableEq, Repr

/-- The lines `Hub.Run` logs. -/
inductive LogLine where
  | joined (roomID : Bytes)
  | left (roomID : Bytes)
  | publishError (err : Bytes)
deriving DecidableEq, Repr

/-- What one iteration of `Hub.Run` does to the outside: a call of `producer.Publish`, a
send on a client's queue that went through, a `close` of a client's queue, a log line. -/
inductive Action where
  | publish (payload : Bytes)
  | enqueue (c : Client) (msg : Bytes)
  | close (c : Client)
  | log (line : LogLine)
deriving DecidableEq, Repr

/-- The `Hub` (hub.go) with the heap it works on. `rooms` is `map[string]*Room`.
`producer n payload` is what the `n`-th call of `producer.Publish` returns for `payload`
(`none` for a nil error) and `published` counts the calls made so far. `send c` is the
state of the channel `c.send`. `shortBF` is the release-dependent choice `escapeByte`
describes. The three channels of the hub are the `Event`s given to `step`. -/
structure Hub where
  rooms : Bytes → Option Room
  send : Client → Chan
  producer : Nat → Bytes → Option Bytes
  published : Nat
  shortBF : Bool

/-- Go `NewHub` (hub.go): no rooms. Every client that `HandleConnections` (ws_handler.go)
will build has its queue as `make(chan []byte, 256)` leaves it. -/
def NewHub (producer : Nat → Bytes → Option Bytes) (shortBF : Bool) : Hub :=
  { rooms := fun _ => none
    send := fun _ => makeChan 256
    producer := producer
    published := 0
    shortBF := shortBF }

/-- What `Hub.Run` receives from one of its three channels. -/
inductive Event where
  | register (c : Client)
  | unregister (c : Client)
  | broadcast (e : MessageEvent)
deriving DecidableEq, Repr

/-- Go `BroadcastToRoom` (hub.go): the event it sends on `h.broadcast`. -/
def BroadcastToRoom (roomID msg : Bytes) : Event :=
  .broadcast { RoomID := roomID, Message := msg, FromKafka := false }

/-- Go `BroadcastLocal` (hub.go): the event it sends on `h.broadcast`. -/
def BroadcastLocal (roomID msg : Bytes) : Event :=
  .broadcast { RoomID := roomID, Message := msg, FromKafka := true }

/-- The event `Client.readPump` (client.go) sends on `h.broadcast` for a message it has
read: `FromKafka` is left at its zero value. -/
def readPumpEvent (c : Client) (message : Bytes) : Event :=
  .broadcast { RoomID := c.RoomID, Message := message, FromKafka := false }

/-- The result of one iteration of `Hub.Run`: the world it leaves (at the point of the
panic when it panics), the actions it performed in order, and the panic if any. -/
structure Outcome where
  world : Hub
  actions : List Action
  panic : Option Panic

/-- The outcome of the statement `select { case c.send <- msg: default: }`. -/
inductive SendResult where
  | sent (ch : Chan)
  | full
  | panicked
deriving DecidableEq, Repr

/-- The non-blocking send `select { case ch <- msg: default: }`: a send on a closed
channel panics, a send on a channel with room in its buffer goes through, and otherwise
the `default` case is taken. -/
def trySend (ch : Chan) (msg : Bytes) : SendResult :=
  if ch.closed then .panicked
  else if ch.buf.length < ch.cap then .sent { ch with buf := ch.buf ++ [msg] }
  else .full

/-- Go `close(ch)`: closing a closed channel panics. -/
def closeChan (ch : Chan) : Option Chan :=
  if ch.closed then none else some { ch with closed := true }

/-- The state of the loop `for c := range room.clients` of `Hub.Run`. -/
structure FanOut where
  send : Client → Chan
  clients : List Client
  actions : List Action
  panic : Option Panic

/-- The loop `for c := range room.clients { select { ... } }` of `Hub.Run` over the keys
still to visit. The only key the body deletes is the one being visited, so every key
present when the loop starts is visited once. -/
def fanOut (msg : Bytes) : List Client → FanOut → FanOut
  | [], st => st
  | c :: cs, st =>
    match trySend (st.send c) msg with
    | .panicked => { st with panic := some .sendOnClosedChannel }
    | .sent ch =>
      fanOut msg cs { st with send := Function.update st.send c ch
                              actions := st.actions ++ [.enqueue c msg] }
    | .full =>
      match closeChan (st.send c) with
      | none => { st with panic := some .closeOfClosedChannel }
      | some ch =>
        fanOut msg cs { st with send := Function.update st.send c ch
                                clients := st.clients.erase c
                                actions := st.actions ++ [.close c] }

/-- The case `client := <-h.register` of `Hub.Run`. -/
def stepRegister (w : Hub) (client : Client) : Outcome :=
  let room := match w.rooms client.RoomID with
    | some room => room
    | none => NewRoom client.RoomID
  let room := { room with
    clients := if client ∈ room.clients then room.clients else room.clients ++ [client] }
  { world := { w with rooms := Function.update w.rooms client.RoomID (some room) }
    actions := [.log (.joined client.RoomID)]
    panic := none }

/-- The case `client := <-h.unregister` of `Hub.Run`. -/
def stepUnregister (w : Hub) (client : Client) : Outcome :=
  match w.rooms client.RoomID with
  | some room =>
    let room := { room with clients := room.clients.erase client }
    let w1 := { w with rooms := Function.update w.rooms client.RoomID (some room) }
    match closeChan (w.send client) with
    | none => { world := w1, actions := [], panic := some .closeOfClosedChannel }
    | some ch =>
      { world := { w1 with send := Function.update w1.send client ch }
        actions := [.close client, .log (.left client.RoomID)]
        panic := none }
  | none => { world := w, actions := [], panic := none }

/-- The first `if` of the case `event := <-h.broadcast`: publish a locally originated
event. The error of `json.Marshal` is discarded; for a `map[string]string` it is nil. -/
def stepPublish (w : Hub) (event : MessageEvent) : Outcome :=
  if !event.FromKafka then
    let payload := marshalEnvelope w.shortBF event.RoomID event.Message
    { world := { w with published := w.published + 1 }
      actions := .publish payload ::
        (match w.producer w.published payload with
         | some err => [.log (.publishError err)]
         | none => [])
      panic := none }
  else { world := w, actions := [], panic := none }

/-- The second `if` of the case `event := <-h.broadcast`: fan a Kafka-originated event
out to the clients of its room. -/
def stepFanOut (w : Hub) (event : MessageEvent) : Outcome :=
  if event.FromKafka then
    match w.rooms event.RoomID with
    | some room =>
      let st := fanOut event.Message room.clients
        { send := w.send, clients := room.clients, actions := [], panic := none }
      let room := { room with clients := st.clients }
      { world := { w with send := st.send
                          rooms := Function.update w.rooms event.RoomID (some room) }
        actions := st.actions
        panic := st.panic }
    | none => { world := w, actions := [], panic := none }
  else { world := w, actions := [], panic := none }

/-- The case `event := <-h.broadcast` of `Hub.Run`: the two `if`s in sequence. -/
def stepBroadcast (w : Hub) (event : MessageEvent) : Outcome :=
  let o1 := stepPublish w event
  let o2 := stepFanOut o1.world event
  { world := o2.world, actions := o1.actions ++ o2.actions, panic := o2.panic }

/-- One iteration of the loop of `Hub.Run` on the event its `select` received. -/
def step (w : Hub) : Event → Outcome
  | .register client => stepRegister w client
  | .unregister client => stepUnregister w client
  | .broadcast event => stepBroadcast w event

/-- The loop of `Hub.Run` on the events it receives in order: it goes on until an
iteration panics, which ends the goroutine (and the process). -/
def Hub.Run (w : Hub) : List Event → Outcome
  | [] => { world := w, actions := [], panic := none }
  | ev :: evs =>
    let o := step w ev
    match o.panic with
    | some p => { world := o.world, actions := o.actions, panic := some p }
    | none =>
      let o2 := Hub.Run o.world evs
      { world := o2.world, actions := o.actions ++ o2.actions, panic := o2.panic }

/-- One iteration of `for message := range c.send` of `Client.writePump` (client.go):
the receive takes the oldest buffered item; with an empty buffer it blocks (or ends the
loop if the channel is closed) and the world stays as it is. -/
def writePumpRecv (w : Hub) (c : Client) : Hub :=
  match (w.send c).buf with
  | [] => w
  | _ :: items => { w with send := Function.update w.send c { w.send c with buf := items } }

/-! ## internal/kafka: the consumer -/

/-- What one iteration of `Consumer.ConsumeMessages` (consumer.go) does with the value
of a message read from Kafka: it forwards the event `BroadcastLocal` builds, or drops the
message when `json.Unmarshal` returns an error. -/
inductive Consumed where
  | forwarded (ev : Event)
  | dropped
  | notModelled
deriving DecidableEq, Repr

/-- One iteration of `Consumer.ConsumeMessages` on the value of a message. -/
def consumeMessage (value : Bytes) : Consumed :=
  match Unmarshal value with
  | .ok km => .forwarded (BroadcastLocal km.RoomID km.Message)
  | .err => .dropped
  | .notModelled => .notModelled


/-! ## Observations on actions and worlds -/

/-- The action is a call of `producer.Publish`. -/
def isPublish : Action → Bool
  | .publish _ => true
  | _ => false

/-- The action is an operation on a client's queue: a send or a `close`. -/
def isQueueOp : Action → Bool
  | .enqueue _ _ => true
  | .close _ => true
  | _ => false

/-- The action is a send on the queue of `c`. -/
def isEnqueueTo (c : Client) : Action → Bool
  | .enqueue c2 _ => decide (c2 = c)
  | _ => false

/-- The buffer of the channel is full: a send would have to wait. -/
def Chan.full (ch : Chan) : Bool := !decide (ch.buf.length < ch.cap)

/-- The channel after a successful send of `msg`. -/
def Chan.push (ch : Chan) (msg : Bytes) : Chan := { ch with buf := ch.buf ++ [msg] }

/-- The channel after `close`. -/
def Chan.shut (ch : Chan) : Chan := { ch with closed := true }

/-- The client `c` is a key of the `clients` map of the room stored under `roomID`. -/
def memberOf (w : Hub) (roomID : Bytes) (c : Client) : Prop :=
  ∃ room, w.rooms roomID = some room ∧ c ∈ room.clients

/-- The relation between a world and the registration state `f` of the clients that
registrations and unregistrations keep: the keys of every room are distinct, and a client
is a member of a room exactly when the room is its own and `f` holds of it. -/
def MembershipInv (w : Hub) (f : Client → Bool) : Prop :=
  (∀ roomID room, w.rooms roomID = some room → room.clients.Nodup) ∧
  (∀ e roomID, memberOf w roomID e ↔ roomID = e.RoomID ∧ f e = true)

/-- The invariant of the reachable worlds, `reg` being the clients registered so far:
the keys of every room are distinct; a member of a room has an open queue, has been
registered and was built for that room; and the queue of a client not yet registered is
open. -/
def HubInv (reg : List Client) (w : Hub) : Prop :=
  (∀ roomID room, w.rooms roomID = some room →
    room.clients.Nodup ∧
    ∀ c ∈ room.clients, (w.send c).closed = false ∧ c ∈ reg ∧ c.RoomID = roomID) ∧
  (∀ c, c ∉ reg → (w.send c).closed = false)

/-! ## Sequences of events -/

/-- The check behind `Lifecycle`, given the clients registered and unregistered so far. -/
def lifecycleFrom (registered unregistered : List Client) : List Event → Bool
  | [] => true
  | .register c :: evs =>
    decide (c ∉ registered) && lifecycleFrom (c :: registered) unregistered evs
  | .unregister c :: evs =>
    decide (c ∈ registered) && decide (c ∉ unregistered) &&
      lifecycleFrom registered (c :: unregistered) evs
  | .broadcast _ :: evs => lifecycleFrom registered unregistered evs

/-- The sequences of events that endpoint lifecycles produce. `HandleConnections`
(ws_handler.go) registers the client it has just built, so a client is registered once;
the deferred function of `Client.readPump` (client.go) submits the one `unregister` of a
client, after its registration; routing events come at any time. -/
def Lifecycle (evs : List Event) : Bool := lifecycleFrom [] [] evs

/-- The event is a registration or an unregistration. -/
def isMembershipEvent : Event → Bool
  | .register _ => true
  | .unregister _ => true
  | .broadcast _ => false

/-- Whether `e` counts as registered after `evs`, given whether it did before: the last
event of `evs` about `e` decides, a `register` for yes and an `unregister` for no. -/
def registeredAfter (e : Client) : Bool → List Event → Bool
  | b, [] => b
  | b, .register c :: evs => registeredAfter e (if c = e then true else b) evs
  | b, .unregister c :: evs => registeredAfter e (if c = e then false else b) evs
  | b, .broadcast _ :: evs => registeredAfter e b evs

/-- The worlds the system reaches from `NewHub`, with the list of the clients registered
so far: `Hub.Run` processes the registration of a client not registered before, the
unregistration of a registered client, or any routing event, each without panic; or the
`writePump` of some client takes an item from its queue. -/
inductive Reachable (producer : Nat → Bytes → Option Bytes) (shortBF : Bool) :
    List Client → Hub → Prop where
  | init : Reachable producer shortBF [] (NewHub producer shortBF)
  | register {reg : List Client} {w : Hub} (c : Client) :
      Reachable producer shortBF reg w → c ∉ reg →
      Reachable producer shortBF (c :: reg) (step w (.register c)).world
  | unregister {reg : List Client} {w : Hub} (c : Client) :
      Reachable producer shortBF reg w → c ∈ reg → (step w (.unregister c)).panic = none →
      Reachable producer shortBF reg (step w (.unregister c)).world
  | broadcast {reg : List Client} {w : Hub} (e : MessageEvent) :
      Reachable producer shortBF reg w → (step w (.broadcast e)).panic = none →
      Reachable producer shortBF reg (step w (.broadcast e)).world
  | recv {reg : List Client} {w : Hub} (c : Client) :
      Reachable producer shortBF reg w →
      Reachable producer shortBF reg (writePumpRecv w c)

/-! ## The coercion to valid UTF-8 and the units of a string literal -/

/-- The coercion to valid UTF-8 that `json.Marshal` applies to a string, run with `fuel`
iterations: each byte that belongs to no well-formed sequence becomes U+FFFD. -/
def coerceLoop : Nat → Bytes → Bytes
  | 0, _ => []
  | fuel + 1, s =>
    match s with
    | [] => []
    | b :: rest =>
      if b < 0x80 then b :: coerceLoop fuel rest
      else if (DecodeRune s).2 ≤ 1 then EncodeRune RuneError ++ coerceLoop fuel rest
      else s.take (DecodeRune s).2 ++ coerceLoop fuel (s.drop (DecodeRune s).2)

/-- The string a Go string becomes once every byte that is not part of valid UTF-8 is
replaced by U+FFFD. -/
def toValidUTF8 (s : Bytes) : Bytes := coerceLoop s.length s

/-- The encoding `appendString` gives an ASCII byte. -/
def encAscii (shortBF : Bool) (b : Nat) : Bytes :=
  if htmlSafe b then [b] else escapeByte shortBF b

/-- The encoding `appendString` gives a multi-byte sequence `u` of rune `r`. -/
def encMulti (u : Bytes) (r : Nat) : Bytes :=
  if r = 0x2028 ∨ r = 0x2029 then asciiBytes "\\u202" ++ [hex (r % 16)] else u


/-! ## Concrete data for the scenarios of the specification -/

/-- The room id of the scenarios. -/
def general : Bytes := asciiBytes "general"

/-- The payload of the scenarios. -/
def hi : Bytes := asciiBytes "hi"

/-- A first endpoint built for room "general". -/
def E1 : Client := { ptr := 1, RoomID := general }

/-- A second endpoint built for room "general". -/
def E2 : Client := { ptr := 2, RoomID := general }

/-- A producer whose `Publish` always returns nil. -/
def okProducer : Nat → Bytes → Option Bytes := fun _ _ => none

/-- A producer whose `Publish` always returns an error. -/
def downProducer : Nat → Bytes → Option Bytes := fun _ _ => some (asciiBytes "broker down")

/-- The hub after `E1` and `E2` have been registered. -/
def hubTwo : Hub := (Hub.Run (NewHub okProducer true) [.register E1, .register E2]).world

/-- The hub of `hubTwo` once 256 messages wait in the queue of `E1`. -/
def hubSlow : Hub :=
  { hubTwo with send := Function.update hubTwo.send E1 { makeChan 256 with buf := List.replicate 256 hi } }

/-- The life of one slow endpoint: `E1` joins, 257 External events arrive for its room
while its `writePump` takes nothing from the queue, and the `readPump` of `E1` submits
its `unregister`. -/
def slowEndpointLife : List Event :=
  [.register E1] ++ List.replicate 257 (BroadcastLocal general hi) ++ [.unregister E1]

/-! ## The fan-out loop -/

theorem fanOut_publish (msg : Bytes) (cs : List Client) (st : FanOut) :
    (fanOut msg cs st).actions.filter isPublish = st.actions.filter isPublish := by
  induction cs generalizing st with
  | nil => rfl
  | cons c cs ih =>
    unfold fanOut
    split
    · rfl
    · rw [ih]; simp [List.filter_append, isPublish]
    · split
      · rfl
      · rw [ih]; simp [List.filter_append, isPublish]

/-- The loop on keys whose queues are all open: it does not panic, each key with room
in its queue gets `msg`, each key with a full queue is closed and deleted. -/
theorem fanOut_open (msg : Bytes) (cs : List Client) (st : FanOut)
    (hnd : cs.Nodup) (hopen : ∀ c ∈ cs, (st.send c).closed = false) :
    (fanOut msg cs st).panic = st.panic ∧
    (∀ c, (fanOut msg cs st).send c =
      if c ∈ cs then (if (st.send c).full then (st.send c).shut else (st.send c).push msg)
      else st.send c) ∧
    (fanOut msg cs st).clients = st.clients.diff (cs.filter fun c => (st.send c).full) ∧
    (fanOut msg cs st).actions = st.actions ++
      cs.map fun c => if (st.send c).full then Action.close c else Action.enqueue c msg := by
  induction cs generalizing st with
  | nil => simp [fanOut]
  | cons c cs ih =>
    have hc : (st.send c).closed = false := hopen c (List.mem_cons_self _ _)
    have hnc : c ∉ cs := (List.nodup_cons.mp hnd).1
    have hnd2 : cs.Nodup := (List.nodup_cons.mp hnd).2
    have hne : ∀ x ∈ cs, x ≠ c := fun x hx h => hnc (h ▸ hx)
    by_cases hfull : (st.send c).buf.length < (st.send c).cap
    · -- the send goes through
      have hts : trySend (st.send c) msg = .sent ((st.send c).push msg) := by
        simp [trySend, hc, hfull, Chan.push]
      have hf : (st.send c).full = false := by simp [Chan.full, hfull]
      have hupd : ∀ x ∈ cs, Function.update st.send c ((st.send c).push msg) x = st.send x :=
        fun x hx => Function.update_noteq (hne x hx) _ _
      obtain ⟨h1, h2, h3, h4⟩ := ih
        { st with send := Function.update st.send c ((st.send c).push msg)
                  actions := st.actions ++ [.enqueue c msg] } hnd2
        (fun x hx => by simpa [hupd x hx] using hopen x (List.mem_cons_of_mem _ hx))
      unfold fanOut
      rw [hts]
      refine ⟨h1, ?_, ?_, ?_⟩
      · intro x
        rw [h2 x]
        by_cases hxc : x = c
        · subst hxc; simp [hnc, hf]
        · by_cases hx : x ∈ cs
          · simp [hx, hxc, Function.update_noteq hxc]
          · simp [hx, hxc, Function.update_noteq hxc]
      · rw [h3]
        simp only [List.filter_cons, hf]
        congr 1
        exact List.filter_congr fun x hx => by simp [hupd x hx]
      · rw [h4]
        simp only [List.map_cons, hf, List.append_assoc, List.singleton_append]
        congr 2
        exact List.map_congr_left fun x hx => by simp [hupd x hx]
    · -- the queue is full: close and delete
      have hts : trySend (st.send c) msg = .full := by simp [trySend, hc, hfull]
      have hcl : closeChan (st.send c) = some (st.send c).shut := by
        simp [closeChan, hc, Chan.shut]
      have hf : (st.send c).full = true := by simp [Chan.full, hfull]
      have hupd : ∀ x ∈ cs, Function.update st.send c (st.send c).shut x = st.send x :=
        fun x hx => Function.update_noteq (hne x hx) _ _
      obtain ⟨h1, h2, h3, h4⟩ := ih
        { st with send := Function.update st.send c (st.send c).shut
                  clients := st.clients.erase c
                  actions := st.actions ++ [.close c] } hnd2
        (fun x hx => by simpa [hupd x hx] using hopen x (List.mem_cons_of_mem _ hx))
      unfold fanOut
      rw [hts]
      simp only [hcl]
      refine ⟨h1, ?_, ?_, ?_⟩
      · intro x
        rw [h2 x]
        by_cases hxc : x = c
        · subst hxc; simp [hnc, hf]
        · by_cases hx : x ∈ cs
          · simp [hx, hxc, Function.update_noteq hxc]
          · simp [hx, hxc, Function.update_noteq hxc]
      · rw [h3]
        simp only [List.filter_cons, hf, if_true, List.diff_cons]
        congr 1
        exact List.filter_congr fun x hx => by simp [hupd x hx]
      · rw [h4]
        simp only [List.map_cons, hf, if_true, List.append_assoc, List.singleton_append]
        congr 2
        exact List.map_congr_left fun x hx => by simp [hupd x hx]

theorem fanOut_queueOps (msg : Bytes) (cs : List Client) (st : FanOut)
    (h : st.actions.filter isQueueOp = st.actions) :
    (fanOut msg cs st).actions.filter isQueueOp = (fanOut msg cs st).actions := by
  induction cs generalizing st with
  | nil => exact h
  | cons c cs ih =>
    unfold fanOut
    split
    · exact h
    · exact ih _ (by simp [List.filter_append, isQueueOp, h])
    · split
      · exact h
      · exact ih _ (by simp [List.filter_append, isQueueOp, h])

/-- The order in which `range` yields the keys of `room.clients` is not specified by Go;
the embedding yields them in the order of the list. When the queues of the keys are open
the result does not depend on that order: visiting the keys in another order gives the
same queues, the same remaining keys, no panic either, and the same actions up to their
order. -/
theorem fanOut_order_irrelevant (msg : Bytes) (cs cs2 : List Client) (st : FanOut)
    (hperm : cs2.Perm cs) (hnd : cs.Nodup) (hopen : ∀ c ∈ cs, (st.send c).closed = false) :
    (fanOut msg cs2 st).panic = (fanOut msg cs st).panic ∧
    (fanOut msg cs2 st).send = (fanOut msg cs st).send ∧
    (fanOut msg cs2 st).clients = (fanOut msg cs st).clients ∧
    ((fanOut msg cs2 st).actions).Perm (fanOut msg cs st).actions := by
  obtain ⟨h1, h2, h3, h4⟩ := fanOut_open msg cs st hnd hopen
  obtain ⟨k1, k2, k3, k4⟩ := fanOut_open msg cs2 st (hperm.nodup_iff.mpr hnd)
    (fun c hc => hopen c (hperm.mem_iff.mp hc))
  refine ⟨by rw [h1, k1], ?_, ?_, ?_⟩
  · funext c
    rw [h2 c, k2 c]
    simp only [hperm.mem_iff]
  · rw [h3, k3]
    exact List.Perm.diff_left _ (hperm.filter _)
  · rw [h4, k4]
    exact List.Perm.append_left _ (hperm.map _)

/-! ## One iteration of `Hub.Run` on a routing event -/

theorem step_external (w : Hub) (roomID msg : Bytes) :
    step w (.broadcast ⟨roomID, msg, true⟩) = stepFanOut w ⟨roomID, msg, true⟩ := by
  simp [step, stepBroadcast, stepPublish]

theorem step_local (w : Hub) (roomID msg : Bytes) :
    step w (.broadcast ⟨roomID, msg, false⟩) =
      { world := { w with published := w.published + 1 }
        actions := .publish (marshalEnvelope w.shortBF roomID msg) ::
          (match w.producer w.published (marshalEnvelope w.shortBF roomID msg) with
           | some err => [.log (.publishError err)]
           | none => [])
        panic := none } := by
  simp [step, stepBroadcast, stepPublish, stepFanOut]

/-- An External event for a room whose keys are distinct and whose members all have
open queues: the whole effect of the step. -/
theorem step_external_open (w : Hub) (roomID msg : Bytes) (room : Room)
    (hroom : w.rooms roomID = some room) (hnd : room.clients.Nodup)
    (hopen : ∀ c ∈ room.clients, (w.send c).closed = false) :
    (step w (.broadcast ⟨roomID, msg, true⟩)).panic = none ∧
    (∀ c, (step w (.broadcast ⟨roomID, msg, true⟩)).world.send c =
      if c ∈ room.clients then (if (w.send c).full then (w.send c).shut else (w.send c).push msg)
      else w.send c) ∧
    (step w (.broadcast ⟨roomID, msg, true⟩)).world.rooms =
      Function.update w.rooms roomID (some { room with
        clients := room.clients.diff (room.clients.filter fun c => (w.send c).full) }) ∧
    (step w (.broadcast ⟨roomID, msg, true⟩)).actions =
      room.clients.map (fun c => if (w.send c).full then Action.close c else Action.enqueue c msg) ∧
    (step w (.broadcast ⟨roomID, msg, true⟩)).world.published = w.published ∧
    (step w (.broadcast ⟨roomID, msg, true⟩)).world.producer = w.producer ∧
    (step w (.broadcast ⟨roomID, msg, true⟩)).world.shortBF = w.shortBF := by
  obtain ⟨h1, h2, h3, h4⟩ := fanOut_open msg room.clients
    { send := w.send, clients := room.clients, actions := [], panic := none } hnd hopen
  rw [step_external]
  simp only [stepFanOut, hroom, if_true]
  refine ⟨h1, h2, ?_, ?_, trivial, trivial, trivial⟩
  · simp only [h3]
  · simpa using h4

/-- A run of External events for one room never touches the queue of a client that is
not a member of that room, and does not panic when the members' queues are open. -/
theorem run_external_nonmember (roomID : Bytes) (e : Client) (msgs : List Bytes) :
    ∀ (w : Hub) (room : Room), w.rooms roomID = some room → room.clients.Nodup →
      (∀ c ∈ room.clients, (w.send c).closed = false) → e ∉ room.clients →
      (Hub.Run w (msgs.map (BroadcastLocal roomID))).panic = none ∧
      (Hub.Run w (msgs.map (BroadcastLocal roomID))).actions.filter (isEnqueueTo e) = [] ∧
      (Hub.Run w (msgs.map (BroadcastLocal roomID))).world.send e = w.send e := by
  induction msgs with
  | nil => intro w room _ _ _ _; simp [Hub.Run]
  | cons msg msgs ih =>
    intro w room hroom hnd hopen hnm
    obtain ⟨h1, h2, h3, h4, -, -, -⟩ := step_external_open w roomID msg room hroom hnd hopen
    have hsub : ∀ c, c ∈ room.clients.diff (room.clients.filter fun c => (w.send c).full) →
        c ∈ room.clients ∧ (w.send c).full = false := by
      intro c hc
      have := (List.Nodup.mem_diff_iff hnd).mp hc
      refine ⟨this.1, ?_⟩
      by_contra hf
      exact this.2 (List.mem_filter.mpr ⟨this.1, by simpa using hf⟩)
    obtain ⟨i1, i2, i3⟩ := ih (step w (.broadcast ⟨roomID, msg, true⟩)).world
      { room with clients := room.clients.diff (room.clients.filter fun c => (w.send c).full) }
      (by rw [h3]; simp) (List.Nodup.diff hnd)
      (by
        intro c hc
        obtain ⟨hc1, hc2⟩ := hsub c hc
        rw [h2 c]; simp [hc1, hc2, Chan.push, hopen c hc1])
      (fun hc => hnm (hsub e hc).1)
    have hact : (step w (.broadcast ⟨roomID, msg, true⟩)).actions.filter (isEnqueueTo e) = [] := by
      rw [h4, List.filter_eq_nil_iff]
      intro a ha
      obtain ⟨c, hc, rfl⟩ := List.mem_map.mp ha
      have hce : c ≠ e := fun h => hnm (h ▸ hc)
      split <;> simp [isEnqueueTo, hce]
    simp only [List.map_cons, Hub.Run, BroadcastLocal, h1] at i1 i2 i3 ⊢
    refine ⟨i1, ?_, ?_⟩
    · rw [List.filter_append, hact, i2]; rfl
    · rw [i3, h2 e]; simp [hnm]

/-! ## Routing events -/

/-- C1, no feedback loop. `BroadcastLocal` builds External events and `BroadcastToRoom`
and `readPump` build Local ones. One iteration of `Hub.Run` on an External event calls
`Publish` not at all (everything it does is an operation on a member's queue); on a Local
event it calls `Publish` exactly once, performs no send and no `close` on any queue,
leaves every queue and the whole room table as they were, and does not panic. Which of
the two happens depends on the origin tag alone. -/
theorem no_feedback_loop (w : Hub) (e : MessageEvent) :
    (∀ roomID msg, BroadcastLocal roomID msg = .broadcast ⟨roomID, msg, true⟩) ∧
    (∀ roomID msg, BroadcastToRoom roomID msg = .broadcast ⟨roomID, msg, false⟩) ∧
    (∀ c msg, readPumpEvent c msg = .broadcast ⟨c.RoomID, msg, false⟩) ∧
    (if e.FromKafka = true then
      (step w (.broadcast e)).actions.filter isPublish = [] ∧
      (step w (.broadcast e)).actions.filter isQueueOp = (step w (.broadcast e)).actions ∧
      (step w (.broadcast e)).world.published = w.published
    else
      (step w (.broadcast e)).actions.filter isPublish =
        [.publish (marshalEnvelope w.shortBF e.RoomID e.Message)] ∧
      (step w (.broadcast e)).actions.filter isQueueOp = [] ∧
      (step w (.broadcast e)).world.published = w.published + 1 ∧
      (step w (.broadcast e)).world.send = w.send ∧
      (step w (.broadcast e)).world.rooms = w.rooms ∧
      (step w (.broadcast e)).panic = none) := by
  refine ⟨fun _ _ => rfl, fun _ _ => rfl, fun _ _ => rfl, ?_⟩
  obtain ⟨roomID, msg, fromKafka⟩ := e
  cases fromKafka
  · rw [step_local]
    simp only [Bool.false_eq_true, if_false]
    refine ⟨?_, ?_, ?_⟩
    rotate_left 2
    · simp
    · cases w.producer w.published (marshalEnvelope w.shortBF roomID msg) <;>
        simp [isPublish]
    · cases w.producer w.published (marshalEnvelope w.shortBF roomID msg) <;>
        simp [isQueueOp]
  · rw [step_external]
    simp only [if_true, stepFanOut]
    cases hroom : w.rooms roomID with
    | none => simp
    | some room =>
      refine ⟨?_, ?_, rfl⟩
      · simpa using fanOut_publish msg room.clients
          { send := w.send, clients := room.clients, actions := [], panic := none }
      · exact fanOut_queueOps msg room.clients
          { send := w.send, clients := room.clients, actions := [], panic := none } rfl

/-- C4, fan-out completeness. When the room stored under `roomID` has members whose
queues are all open and not full, one iteration of `Hub.Run` on an External event for
`roomID` does not panic, performs exactly one send per member and nothing else (as many
sends as the room has members), appends the payload to the queue of each member, leaves
the queue of every other client as it was, and leaves the room table as it was. The list
of members has no repetition, as the keys of a Go map. -/
theorem fanout_completeness (w : Hub) (roomID msg : Bytes) (room : Room)
    (hroom : w.rooms roomID = some room) (hnd : room.clients.Nodup)
    (hopen : ∀ c ∈ room.clients,
      (w.send c).closed = false ∧ (w.send c).buf.length < (w.send c).cap) :
    (step w (BroadcastLocal roomID msg)).panic = none ∧
    (step w (BroadcastLocal roomID msg)).actions = room.clients.map (fun c => .enqueue c msg) ∧
    (step w (BroadcastLocal roomID msg)).actions.length = room.clients.length ∧
    (∀ c ∈ room.clients, (step w (BroadcastLocal roomID msg)).world.send c =
      { w.send c with buf := (w.send c).buf ++ [msg] }) ∧
    (∀ c, c ∉ room.clients → (step w (BroadcastLocal roomID msg)).world.send c = w.send c) ∧
    (step w (BroadcastLocal roomID msg)).world.rooms = w.rooms := by
  obtain ⟨h1, h2, h3, h4, -, -, -⟩ :=
    step_external_open w roomID msg room hroom hnd (fun c hc => (hopen c hc).1)
  have hnf : ∀ c ∈ room.clients, (w.send c).full = false :=
    fun c hc => by simp [Chan.full, (hopen c hc).2]
  have hact : (step w (BroadcastLocal roomID msg)).actions =
      room.clients.map (fun c => .enqueue c msg) := by
    simp only [BroadcastLocal, h4]
    exact List.map_congr_left fun c hc => by simp [hnf c hc]
  refine ⟨h1, hact, by rw [hact, List.length_map], ?_, ?_, ?_⟩
  · intro c hc
    simp only [BroadcastLocal, h2 c]
    simp [hc, hnf c hc, Chan.push]
  · intro c hc
    simp only [BroadcastLocal, h2 c]
    simp [hc]
  · simp only [BroadcastLocal, h3]
    have hfil : (room.clients.filter fun c => (w.send c).full) = [] :=
      List.filter_eq_nil_iff.mpr fun c hc => by simp [hnf c hc]
    rw [hfil, List.diff_nil, ← hroom]
    exact Function.update_eq_self roomID w.rooms

/-- Witness of C4: the room "general" of `hubTwo` has the two members `E1` and `E2`, both
with open and empty queues; an External event is sent to each of them once. -/
theorem fanout_completeness_witness :
    (step hubTwo (BroadcastLocal general hi)).panic = none ∧
    (step hubTwo (BroadcastLocal general hi)).actions = [.enqueue E1 hi, .enqueue E2 hi] :=
  have h := fanout_completeness hubTwo general hi { ID := general, clients := [E1, E2] }
    (by decide) (by decide) (by decide)
  ⟨h.1, h.2.1⟩

/-- C5, slow-consumer eviction. Let `e` be a member of the room stored under `roomID`
whose queue holds as many items as its capacity. One iteration of `Hub.Run` on an External
event for `roomID` does not panic, closes the queue of `e` without adding to it, and
deletes `e` from the room; every member whose queue is not full stays a member and gets
the payload; and whatever External events for `roomID` come next, none sends to `e`, none
panics and the queue of `e` stays as the eviction left it. The hub is taken as every
reachable world is by `reachable_hubInv`: the members of the room are distinct keys and
their queues are open. -/
theorem slow_consumer_eviction (w : Hub) (roomID msg : Bytes) (room : Room) (e : Client)
    (hroom : w.rooms roomID = some room) (hnd : room.clients.Nodup)
    (hopen : ∀ c ∈ room.clients, (w.send c).closed = false)
    (hmem : e ∈ room.clients) (hfull : (w.send e).buf.length = (w.send e).cap) :
    (step w (BroadcastLocal roomID msg)).panic = none ∧
    ¬ memberOf (step w (BroadcastLocal roomID msg)).world roomID e ∧
    (step w (BroadcastLocal roomID msg)).world.send e = { w.send e with closed := true } ∧
    Action.close e ∈ (step w (BroadcastLocal roomID msg)).actions ∧
    (step w (BroadcastLocal roomID msg)).actions.filter (isEnqueueTo e) = [] ∧
    (∀ c ∈ room.clients, (w.send c).buf.length < (w.send c).cap →
      memberOf (step w (BroadcastLocal roomID msg)).world roomID c ∧
      Action.enqueue c msg ∈ (step w (BroadcastLocal roomID msg)).actions ∧
      (step w (BroadcastLocal roomID msg)).world.send c =
        { w.send c with buf := (w.send c).buf ++ [msg] }) ∧
    (∀ msgs : List Bytes,
      (Hub.Run (step w (BroadcastLocal roomID msg)).world (msgs.map (BroadcastLocal roomID))).panic
        = none ∧
      (Hub.Run (step w (BroadcastLocal roomID msg)).world
        (msgs.map (BroadcastLocal roomID))).actions.filter (isEnqueueTo e) = [] ∧
      (Hub.Run (step w (BroadcastLocal roomID msg)).world
        (msgs.map (BroadcastLocal roomID))).world.send e = { w.send e with closed := true }) := by
  obtain ⟨h1, h2, h3, h4, -, -, -⟩ := step_external_open w roomID msg room hroom hnd hopen
  have hef : (w.send e).full = true := by simp [Chan.full, hfull]
  have hmd : ∀ c, c ∈ room.clients.diff (room.clients.filter fun c => (w.send c).full) ↔
      c ∈ room.clients ∧ (w.send c).full = false := by
    intro c
    rw [List.Nodup.mem_diff_iff hnd, List.mem_filter]
    constructor
    · rintro ⟨hc, hn⟩
      refine ⟨hc, ?_⟩
      by_contra hf
      exact hn ⟨hc, by simpa using hf⟩
    · rintro ⟨hc, hf⟩
      exact ⟨hc, fun hn => by simp [hf] at hn⟩
  have hsend : (step w (BroadcastLocal roomID msg)).world.send e = { w.send e with closed := true } := by
    simp only [BroadcastLocal, h2 e]
    simp [hmem, hef, Chan.shut]
  have hnot : e ∉ room.clients.diff (room.clients.filter fun c => (w.send c).full) :=
    fun hc => by simpa [hef] using ((hmd e).mp hc).2
  simp only [BroadcastLocal] at hsend ⊢
  refine ⟨h1, ?_, hsend, ?_, ?_, ?_, ?_⟩
  · rintro ⟨room2, hr2, he2⟩
    rw [h3, Function.update_same] at hr2
    cases hr2
    exact hnot he2
  · rw [h4]
    exact List.mem_map.mpr ⟨e, hmem, by simp [hef]⟩
  · rw [h4, List.filter_eq_nil_iff]
    intro a ha
    obtain ⟨c, hc, rfl⟩ := List.mem_map.mp ha
    by_cases hce : c = e
    · subst hce; simp [hef, isEnqueueTo]
    · split <;> simp [isEnqueueTo, hce]
  · intro c hc hlt
    have hcf : (w.send c).full = false := by simp [Chan.full, hlt]
    refine ⟨⟨_, by rw [h3, Function.update_same], (hmd c).mpr ⟨hc, hcf⟩⟩, ?_, ?_⟩
    · rw [h4]
      exact List.mem_map.mpr ⟨c, hc, by simp [hcf]⟩
    · rw [h2 c]; simp [hc, hcf, Chan.push]
  · intro msgs
    have := run_external_nonmember roomID e msgs (step w (.broadcast ⟨roomID, msg, true⟩)).world
      { room with clients := room.clients.diff (room.clients.filter fun c => (w.send c).full) }
      (by rw [h3, Function.update_same]) (List.Nodup.diff hnd)
      (by
        intro c hc
        obtain ⟨hc1, hc2⟩ := (hmd c).mp hc
        rw [h2 c]; simp [hc1, hc2, Chan.push, hopen c hc1])
      hnot
    simp only [BroadcastLocal] at this
    rw [hsend] at this
    exact this

/-- Witness of C5: in `hubSlow` the queue of `E1`, of capacity 256, holds 256 items; the
External event evicts `E1` and is delivered to `E2`. -/
theorem slow_consumer_eviction_witness :
    (hubSlow.send E1).cap = 256 ∧ (hubSlow.send E1).buf.length = 256 ∧
    (step hubSlow (BroadcastLocal general hi)).panic = none ∧
    ¬ memberOf (step hubSlow (BroadcastLocal general hi)).world general E1 :=
  have h := slow_consumer_eviction hubSlow general hi { ID := general, clients := [E1, E2] } E1
    (by decide) (by decide) (by decide) (by decide) (by decide)
  ⟨by decide, by decide, h.1, h.2.1⟩

/-- C10, unknown or empty room on route. When the room table has no entry for `roomID`,
or has a room without members, one iteration of `Hub.Run` on an External event for
`roomID` does not panic, does nothing (no send, no `close`, no `Publish`, no log line) and
leaves the world exactly as it was: no room is created, no membership and no queue
changes. -/
theorem external_unknown_or_empty_room (w : Hub) (roomID msg : Bytes)
    (h : w.rooms roomID = none ∨ ∃ room, w.rooms roomID = some room ∧ room.clients = []) :
    (step w (BroadcastLocal roomID msg)).panic = none ∧
    (step w (BroadcastLocal roomID msg)).actions = [] ∧
    (step w (BroadcastLocal roomID msg)).world = w := by
  simp only [BroadcastLocal, step_external, stepFanOut, if_true]
  rcases h with h | ⟨room, hroom, hempty⟩
  · simp [h]
  · obtain ⟨id, clients⟩ := room
    simp only at hempty
    subst hempty
    simp only [hroom, fanOut, true_and]
    rw [← hroom, Function.update_eq_self]

/-- Witness of C10: the empty hub has no room "general", and after `E1` has come and
gone the room "general" is there without members. -/
theorem external_unknown_or_empty_room_witness :
    (step (NewHub okProducer true) (BroadcastLocal general hi)).actions = [] ∧
    (step (Hub.Run (NewHub okProducer true) [.register E1, .unregister E1]).world
      (BroadcastLocal general hi)).actions = [] :=
  ⟨(external_unknown_or_empty_room (NewHub okProducer true) general hi (Or.inl rfl)).2.1,
   (external_unknown_or_empty_room
      (Hub.Run (NewHub okProducer true) [.register E1, .unregister E1]).world general hi
      (Or.inr ⟨{ ID := general, clients := [] }, by decide, rfl⟩)).2.1⟩

/-! ## Unregistration -/

/-- C2 (the code does not do this). The events of `slowEndpointLife` follow the lifecycle
of one endpoint. `Hub.Run` processes the registration and the 257 External events without
panic, the 257th finding 256 items queued and evicting `E1`; the iteration for the
`unregister` of `E1` then panics with "close of closed channel", on a room that has no
member. -/
theorem run_panics_on_unregister_after_eviction :
    Lifecycle slowEndpointLife = true ∧
    (Hub.Run (NewHub okProducer true) slowEndpointLife.dropLast).panic = none ∧
    ((Hub.Run (NewHub okProducer true) slowEndpointLife.dropLast).world.send E1).closed = true ∧
    (Hub.Run (NewHub okProducer true) slowEndpointLife.dropLast).world.rooms general =
      some { ID := general, clients := [] } ∧
    (step (Hub.Run (NewHub okProducer true) slowEndpointLife.dropLast).world (.unregister E1)).panic =
      some .closeOfClosedChannel ∧
    (Hub.Run (NewHub okProducer true) slowEndpointLife).panic = some .closeOfClosedChannel := by
  decide

/-- C3 (the code does not do this). From any world, after the registration of `e` the
second of two `unregister` events for `e` cannot be processed: the run panics with "close
of closed channel". The same happens to the one `unregister` of an endpoint that an
eviction has already removed from its room: in `hubSlow` an External event evicts `E1`,
and the iteration for the `unregister` of `E1` panics. And the `unregister` of an endpoint
that was never registered is not a no-op when its room exists: `E2` was never registered
in the hub that has only `E1`, and the iteration closes the queue of `E2`. -/
theorem unregister_twice_panics (w : Hub) (e : Client) :
    (Hub.Run w [.register e, .unregister e, .unregister e]).panic = some .closeOfClosedChannel ∧
    (Hub.Run (NewHub okProducer true) [.register E1, .unregister E1]).panic = none ∧
    (step (Hub.Run (NewHub okProducer true) [.register E1, .unregister E1]).world
      (.unregister E1)).panic = some .closeOfClosedChannel ∧
    (step hubSlow (BroadcastLocal general hi)).panic = none ∧
    (step hubSlow (BroadcastLocal general hi)).world.rooms general =
      some { ID := general, clients := [E2] } ∧
    (step (step hubSlow (BroadcastLocal general hi)).world (.unregister E1)).panic =
      some .closeOfClosedChannel ∧
    ((NewHub okProducer true).send E2).closed = false ∧
    (step (Hub.Run (NewHub okProducer true) [.register E1]).world (.unregister E2)).actions =
      [.close E2, .log (.left general)] ∧
    ((step (Hub.Run (NewHub okProducer true) [.register E1]).world (.unregister E2)).world.send
      E2).closed = true := by
  refine ⟨?_, by decide, by decide, by decide, by decide, by decide, by decide, by decide,
    by decide⟩
  by_cases hc : (w.send e).closed = true
  · simp [Hub.Run, step, stepRegister, stepUnregister, closeChan, hc]
  · simp [Hub.Run, step, stepRegister, stepUnregister, closeChan, hc]

/-! ## Membership -/

theorem run_cons_ok (w : Hub) (ev : Event) (evs : List Event)
    (h : (Hub.Run w (ev :: evs)).panic = none) :
    (step w ev).panic = none ∧ (Hub.Run (step w ev).world evs).panic = none ∧
    (Hub.Run w (ev :: evs)).world = (Hub.Run (step w ev).world evs).world ∧
    (Hub.Run w (ev :: evs)).actions = (step w ev).actions ++ (Hub.Run (step w ev).world evs).actions := by
  have hrun : Hub.Run w (ev :: evs) =
      match (step w ev).panic with
      | some p => { world := (step w ev).world, actions := (step w ev).actions, panic := some p }
      | none =>
        { world := (Hub.Run (step w ev).world evs).world
          actions := (step w ev).actions ++ (Hub.Run (step w ev).world evs).actions
          panic := (Hub.Run (step w ev).world evs).panic } := rfl
  rw [hrun] at h ⊢
  cases hp : (step w ev).panic with
  | some p => simp [hp] at h
  | none => simpa [hp] using h

theorem memberOf_register (w : Hub) (c e : Client) (roomID : Bytes) :
    memberOf (step w (.register c)).world roomID e ↔
      memberOf w roomID e ∨ (e = c ∧ roomID = c.RoomID) := by
  unfold memberOf
  by_cases hr : roomID = c.RoomID
  · subst hr
    simp only [step, stepRegister, Function.update_same, Option.some.injEq, exists_eq_left', and_true]
    cases hroom : w.rooms c.RoomID with
    | none => simp [NewRoom]
    | some room =>
      by_cases hc : c ∈ room.clients
      · simp only [hc, if_true, Option.some.injEq, exists_eq_left']
        constructor
        · exact Or.inl
        · rintro (h | h)
          · exact h
          · exact h ▸ hc
      · simp [hc]
  · simp [step, stepRegister, Function.update_noteq hr, hr]

theorem nodup_register (w : Hub) (c : Client) (roomID : Bytes) (room : Room)
    (hnd : ∀ roomID room, w.rooms roomID = some room → room.clients.Nodup)
    (h : (step w (.register c)).world.rooms roomID = some room) : room.clients.Nodup := by
  by_cases hr : roomID = c.RoomID
  · subst hr
    simp only [step, stepRegister, Function.update_same, Option.some.injEq] at h
    subst h
    cases hroom : w.rooms c.RoomID with
    | none => simp [NewRoom]
    | some room =>
      have := hnd _ _ hroom
      by_cases hc : c ∈ room.clients
      · simpa [hc] using this
      · simp only [hc, if_false]
        exact List.Nodup.append this (List.nodup_singleton c) (by simpa using hc)
  · simp only [step, stepRegister, Function.update_noteq hr] at h
    exact hnd _ _ h

theorem memberOf_unregister (w : Hub) (c e : Client) (roomID : Bytes)
    (hnd : ∀ roomID room, w.rooms roomID = some room → room.clients.Nodup) :
    memberOf (step w (.unregister c)).world roomID e ↔
      memberOf w roomID e ∧ ¬ (e = c ∧ roomID = c.RoomID) := by
  unfold memberOf
  cases hroom : w.rooms c.RoomID with
  | none =>
    simp only [step, stepUnregister, hroom]
    constructor
    · rintro ⟨room, h1, h2⟩
      refine ⟨⟨room, h1, h2⟩, ?_⟩
      rintro ⟨-, rfl⟩
      simp [hroom] at h1
    · rintro ⟨h, -⟩
      exact h
  | some room =>
    have hw : (step w (.unregister c)).world.rooms =
        Function.update w.rooms c.RoomID (some { room with clients := room.clients.erase c }) := by
      simp only [step, stepUnregister, hroom]
      cases closeChan (w.send c) <;> rfl
    rw [hw]
    by_cases hr : roomID = c.RoomID
    · subst hr
      simp only [Function.update_same, Option.some.injEq, exists_eq_left', hroom,
        (hnd _ _ hroom).mem_erase_iff, and_true]
      tauto
    · simp [Function.update_noteq hr, hr]

theorem nodup_unregister (w : Hub) (c : Client) (roomID : Bytes) (room : Room)
    (hnd : ∀ roomID room, w.rooms roomID = some room → room.clients.Nodup)
    (h : (step w (.unregister c)).world.rooms roomID = some room) : room.clients.Nodup := by
  cases hroom : w.rooms c.RoomID with
  | none =>
    simp only [step, stepUnregister, hroom] at h
    exact hnd _ _ h
  | some room0 =>
    have hw : (step w (.unregister c)).world.rooms =
        Function.update w.rooms c.RoomID (some { room0 with clients := room0.clients.erase c }) := by
      simp only [step, stepUnregister, hroom]
      cases closeChan (w.send c) <;> rfl
    rw [hw] at h
    by_cases hr : roomID = c.RoomID
    · subst hr
      simp only [Function.update_same, Option.some.injEq] at h
      subst h
      exact (hnd _ _ hroom).erase c
    · rw [Function.update_noteq hr] at h
      exact hnd _ _ h

/-- Registrations and unregistrations that are processed keep `MembershipInv`. -/
theorem run_membership (evs : List Event) :
    ∀ (w : Hub) (f : Client → Bool), (∀ ev ∈ evs, isMembershipEvent ev = true) →
      MembershipInv w f → (Hub.Run w evs).panic = none →
      MembershipInv (Hub.Run w evs).world (fun e => registeredAfter e (f e) evs) := by
  induction evs with
  | nil => intro w f _ h _; simpa [Hub.Run, registeredAfter] using h
  | cons ev evs ih =>
    intro w f hev hinv hok
    obtain ⟨h1, h2, h3, -⟩ := run_cons_ok w ev evs hok
    rw [h3]
    have hev2 : ∀ ev ∈ evs, isMembershipEvent ev = true :=
      fun x hx => hev x (List.mem_cons_of_mem _ hx)
    cases ev with
    | register c =>
      have hinv2 : MembershipInv (step w (.register c)).world
          (fun e => if c = e then true else f e) := by
        refine ⟨fun roomID room h => nodup_register w c roomID room hinv.1 h, ?_⟩
        intro e roomID
        rw [memberOf_register, hinv.2 e roomID]
        by_cases hce : c = e
        · subst hce; simp; tauto
        · have : ¬ e = c := fun h => hce h.symm
          simp [hce, this]
      exact ih _ _ hev2 hinv2 h2
    | unregister c =>
      have hinv2 : MembershipInv (step w (.unregister c)).world
          (fun e => if c = e then false else f e) := by
        refine ⟨fun roomID room h => nodup_unregister w c roomID room hinv.1 h, ?_⟩
        intro e roomID
        rw [memberOf_unregister w c e roomID hinv.1, hinv.2 e roomID]
        by_cases hce : c = e
        · subst hce; simp; tauto
        · have : ¬ e = c := fun h => hce h.symm
          simp [hce, this]
      exact ih _ _ hev2 hinv2 h2
    | broadcast e =>
      have := hev (.broadcast e) (List.mem_cons_self _ _)
      simp [isMembershipEvent] at this

theorem memberOf_unregister_other (w : Hub) (e c : Client) (roomID : Bytes) (hce : c ≠ e) :
    memberOf (step w (.unregister e)).world roomID c ↔ memberOf w roomID c := by
  unfold memberOf
  cases hroom : w.rooms e.RoomID with
  | none => simp only [step, stepUnregister, hroom]
  | some room =>
    have hw : (step w (.unregister e)).world.rooms =
        Function.update w.rooms e.RoomID (some { room with clients := room.clients.erase e }) := by
      simp only [step, stepUnregister, hroom]
      cases closeChan (w.send e) <;> rfl
    rw [hw]
    by_cases hr : roomID = e.RoomID
    · subst hr
      simp [hroom, List.mem_erase_of_ne hce]
    · simp [Function.update_noteq hr]

/-- C8, membership invariant. Start from `NewHub` and let `Hub.Run` process a sequence of
registrations and unregistrations. Then a client `e` is a member of the room stored under
`roomID` exactly when `roomID` is `e.RoomID` and the last of these events about `e` is a
registration; so `e` is a member of at most one room. In any world, the registration of
`e` for a room id without entry creates the room with `e` as its only member, and neither
the registration nor the unregistration of `e` changes which rooms another client is a
member of. -/
theorem membership_invariant (producer : Nat → Bytes → Option Bytes) (shortBF : Bool)
    (evs : List Event) (hev : ∀ ev ∈ evs, isMembershipEvent ev = true)
    (hok : (Hub.Run (NewHub producer shortBF) evs).panic = none) :
    (∀ e roomID, memberOf (Hub.Run (NewHub producer shortBF) evs).world roomID e ↔
      roomID = e.RoomID ∧ registeredAfter e false evs = true) ∧
    (∀ e r1 r2, memberOf (Hub.Run (NewHub producer shortBF) evs).world r1 e →
      memberOf (Hub.Run (NewHub producer shortBF) evs).world r2 e → r1 = r2) ∧
    (∀ (w : Hub) (e : Client), w.rooms e.RoomID = none →
      (step w (.register e)).world.rooms e.RoomID = some { ID := e.RoomID, clients := [e] }) ∧
    (∀ (w : Hub) (e c : Client) (roomID : Bytes), c ≠ e →
      (memberOf (step w (.register e)).world roomID c ↔ memberOf w roomID c) ∧
      (memberOf (step w (.unregister e)).world roomID c ↔ memberOf w roomID c)) := by
  have hinv0 : MembershipInv (NewHub producer shortBF) (fun _ => false) := by
    refine ⟨fun roomID room h => ?_, fun e roomID => ?_⟩
    · simp [NewHub] at h
    · simp [memberOf, NewHub]
  have hinv := run_membership evs (NewHub producer shortBF) (fun _ => false) hev hinv0 hok
  refine ⟨hinv.2, ?_, ?_, ?_⟩
  · intro e r1 r2 h1 h2
    rw [((hinv.2 e r1).mp h1).1, ((hinv.2 e r2).mp h2).1]
  · intro w e hnone
    simp [step, stepRegister, hnone, NewRoom]
  · intro w e c roomID hce
    refine ⟨?_, memberOf_unregister_other w e c roomID hce⟩
    rw [memberOf_register]
    simp [hce]

/-- Witness of C8: after `E1` and `E2` have joined and `E1` has left, `E2` is a member of
room "general" and `E1` is not. -/
theorem membership_invariant_witness :
    (Hub.Run (NewHub okProducer true) [.register E1, .register E2, .unregister E1]).panic = none ∧
    memberOf (Hub.Run (NewHub okProducer true) [.register E1, .register E2, .unregister E1]).world
      general E2 ∧
    ¬ memberOf (Hub.Run (NewHub okProducer true) [.register E1, .register E2, .unregister E1]).world
      general E1 :=
  have h := (membership_invariant okProducer true [.register E1, .register E2, .unregister E1]
    (by decide) (by decide)).1
  ⟨by decide, (h E2 general).mpr (by decide), fun hm => by
    have := ((h E1 general).mp hm).2
    revert this
    decide⟩

/-! ## Reachable worlds -/

theorem hubInv_register (reg : List Client) (w : Hub) (c : Client)
    (hinv : HubInv reg w) (hc : c ∉ reg) : HubInv (c :: reg) (step w (.register c)).world := by
  have hsend : (step w (.register c)).world.send = w.send := rfl
  refine ⟨fun roomID room hroom => ⟨?_, fun x hx => ?_⟩, fun x hx => ?_⟩
  · exact nodup_register w c roomID room (fun r rm h => (hinv.1 r rm h).1) hroom
  · have hm : memberOf (step w (.register c)).world roomID x := ⟨room, hroom, hx⟩
    rw [memberOf_register] at hm
    rw [hsend]
    rcases hm with ⟨room0, hr0, hx0⟩ | ⟨rfl, rfl⟩
    · obtain ⟨h1, h2, h3⟩ := (hinv.1 roomID room0 hr0).2 x hx0
      exact ⟨h1, List.mem_cons_of_mem _ h2, h3⟩
    · exact ⟨hinv.2 x hc, List.mem_cons_self _ _, rfl⟩
  · rw [hsend]
    exact hinv.2 x (fun h => hx (List.mem_cons_of_mem _ h))

theorem hubInv_unregister (reg : List Client) (w : Hub) (c : Client)
    (hinv : HubInv reg w) (hc : c ∈ reg) : HubInv reg (step w (.unregister c)).world := by
  have hnd : ∀ roomID room, w.rooms roomID = some room → room.clients.Nodup :=
    fun r rm h => (hinv.1 r rm h).1
  have hsend : ∀ x, x ≠ c → (step w (.unregister c)).world.send x = w.send x := by
    intro x hx
    simp only [step, stepUnregister]
    cases w.rooms c.RoomID with
    | none => rfl
    | some room0 =>
      cases closeChan (w.send c) with
      | none => rfl
      | some ch => exact Function.update_noteq hx _ _
  refine ⟨fun roomID room hroom => ⟨?_, fun x hx => ?_⟩, fun x hx => ?_⟩
  · exact nodup_unregister w c roomID room hnd hroom
  · have hm : memberOf (step w (.unregister c)).world roomID x := ⟨room, hroom, hx⟩
    rw [memberOf_unregister w c x roomID hnd] at hm
    obtain ⟨⟨room0, hr0, hx0⟩, hne⟩ := hm
    obtain ⟨h1, h2, h3⟩ := (hinv.1 roomID room0 hr0).2 x hx0
    have hxc : x ≠ c := fun h => hne ⟨h, by rw [← h3, h]⟩
    rw [hsend x hxc]
    exact ⟨h1, h2, h3⟩
  · have hxc : x ≠ c := fun h => hx (h ▸ hc)
    rw [hsend x hxc]
    exact hinv.2 x hx

theorem hubInv_broadcast (reg : List Client) (w : Hub) (e : MessageEvent)
    (hinv : HubInv reg w) : HubInv reg (step w (.broadcast e)).world := by
  obtain ⟨roomID, msg, fromKafka⟩ := e
  cases fromKafka
  · rw [step_local]
    exact hinv
  · cases hroom : w.rooms roomID with
    | none =>
      rw [step_external]
      simp only [stepFanOut, hroom, if_true]
      exact hinv
    | some room =>
      obtain ⟨hnd, hmem⟩ := hinv.1 roomID room hroom
      obtain ⟨-, h2, h3, -, -, -, -⟩ :=
        step_external_open w roomID msg room hroom hnd (fun c hc => (hmem c hc).1)
      refine ⟨fun r rm hr => ⟨?_, fun x hx => ?_⟩, fun x hx => ?_⟩
      · rw [h3] at hr
        by_cases hrr : r = roomID
        · subst hrr
          rw [Function.update_same] at hr
          cases hr
          exact List.Nodup.diff hnd
        · rw [Function.update_noteq hrr] at hr
          exact (hinv.1 r rm hr).1
      · rw [h3] at hr
        by_cases hrr : r = roomID
        · subst hrr
          rw [Function.update_same] at hr
          cases hr
          have hd := (List.Nodup.mem_diff_iff hnd).mp hx
          have hnf : (w.send x).full = false := by
            by_contra hf
            exact hd.2 (List.mem_filter.mpr ⟨hd.1, by simpa using hf⟩)
          obtain ⟨g1, g2, g3⟩ := hmem x hd.1
          rw [h2 x]
          simp only [hd.1, if_true, hnf, Bool.false_eq_true, if_false]
          exact ⟨g1, g2, g3⟩
        · rw [Function.update_noteq hrr] at hr
          obtain ⟨g1, g2, g3⟩ := (hinv.1 r rm hr).2 x hx
          have hxn : x ∉ room.clients := fun h => hrr (by rw [← g3, (hmem x h).2.2])
          rw [h2 x]
          simp only [hxn, if_false]
          exact ⟨g1, g2, g3⟩
      · have hxn : x ∉ room.clients := fun h => hx (hmem x h).2.1
        rw [h2 x]
        simp only [hxn, if_false]
        exact hinv.2 x hx

theorem hubInv_recv (reg : List Client) (w : Hub) (c : Client)
    (hinv : HubInv reg w) : HubInv reg (writePumpRecv w c) := by
  have hrooms : (writePumpRecv w c).rooms = w.rooms := by
    unfold writePumpRecv; split <;> rfl
  have hclosed : ∀ x, ((writePumpRecv w c).send x).closed = (w.send x).closed := by
    intro x
    unfold writePumpRecv
    split
    · rfl
    · by_cases hx : x = c
      · subst hx; simp
      · simp [Function.update_noteq hx]
  refine ⟨fun r rm hr => ?_, fun x hx => ?_⟩
  · rw [hrooms] at hr
    refine ⟨(hinv.1 r rm hr).1, fun x hx => ?_⟩
    rw [hclosed x]
    exact (hinv.1 r rm hr).2 x hx
  · rw [hclosed x]
    exact hinv.2 x hx

/-- Every reachable world satisfies `HubInv`. -/
theorem reachable_hubInv (producer : Nat → Bytes → Option Bytes) (shortBF : Bool)
    (reg : List Client) (w : Hub) (h : Reachable producer shortBF reg w) : HubInv reg w := by
  induction h with
  | init => exact ⟨fun roomID room hr => by simp [NewHub] at hr, fun c _ => rfl⟩
  | register c _ hc ih => exact hubInv_register _ _ c ih hc
  | unregister c _ hc _ ih => exact hubInv_unregister _ _ c ih hc
  | broadcast e _ _ ih => exact hubInv_broadcast _ _ e ih
  | recv c _ ih => exact hubInv_recv _ _ c ih

/-- The runs of `Hub.Run` on the events of endpoint lifecycles stay within the reachable
worlds as long as they do not panic. -/
theorem run_reachable (producer : Nat → Bytes → Option Bytes) (shortBF : Bool)
    (evs : List Event) :
    ∀ (reg unreg : List Client) (w : Hub), Reachable producer shortBF reg w →
      lifecycleFrom reg unreg evs = true → (Hub.Run w evs).panic = none →
      ∃ reg2, Reachable producer shortBF reg2 (Hub.Run w evs).world := by
  induction evs with
  | nil => intro reg _ w h _ _; exact ⟨reg, h⟩
  | cons ev evs ih =>
    intro reg unreg w h hl hok
    obtain ⟨h1, h2, h3, -⟩ := run_cons_ok w ev evs hok
    rw [h3]
    cases ev with
    | register c =>
      simp only [lifecycleFrom, Bool.and_eq_true, decide_eq_true_eq] at hl
      exact ih (c :: reg) unreg _ (Reachable.register c h hl.1) hl.2 h2
    | unregister c =>
      simp only [lifecycleFrom, Bool.and_eq_true, decide_eq_true_eq] at hl
      exact ih reg (c :: unreg) _ (Reachable.unregister c h hl.1.1 h1) hl.2 h2
    | broadcast e =>
      simp only [lifecycleFrom] at hl
      exact ih reg unreg _ (Reachable.broadcast e h h1) hl h2

/-- C9, no stale closed endpoints. In every world reachable from `NewHub` (each client
registered once, by `HandleConnections`, and unregistered after that), every member of
every room has an open queue, so an External event never panics. Put the other way round:
a client whose queue has been closed is a member of no room, and an External event, for
whatever room, does not send to it and leaves its queue as it is. In the scenario where
`a` and `b` join the same room and `b` leaves, an External event for that room is sent to
`a` only. -/
theorem no_stale_closed_endpoints (producer : Nat → Bytes → Option Bytes) (shortBF : Bool)
    (reg : List Client) (w : Hub) (h : Reachable producer shortBF reg w) :
    (∀ roomID c, memberOf w roomID c → (w.send c).closed = false) ∧
    (∀ roomID msg, (step w (BroadcastLocal roomID msg)).panic = none) ∧
    (∀ c, (w.send c).closed = true →
      (∀ roomID, ¬ memberOf w roomID c) ∧
      (∀ roomID msg,
        (step w (BroadcastLocal roomID msg)).actions.filter (isEnqueueTo c) = [] ∧
        (step w (BroadcastLocal roomID msg)).world.send c = w.send c)) ∧
    (∀ (a b : Client) (msg : Bytes), a ≠ b → a.RoomID = b.RoomID →
      (Hub.Run (NewHub producer shortBF) [.register a, .register b, .unregister b]).panic = none ∧
      (step (Hub.Run (NewHub producer shortBF) [.register a, .register b, .unregister b]).world
        (BroadcastLocal a.RoomID msg)).actions = [.enqueue a msg]) := by
  have hinv := reachable_hubInv producer shortBF reg w h
  have hopen : ∀ roomID c, memberOf w roomID c → (w.send c).closed = false := by
    rintro roomID c ⟨room, hroom, hc⟩
    exact ((hinv.1 roomID room hroom).2 c hc).1
  refine ⟨hopen, ?_, ?_, ?_⟩
  · intro roomID msg
    cases hroom : w.rooms roomID with
    | none => simp [BroadcastLocal, step_external, stepFanOut, hroom]
    | some room =>
      exact (step_external_open w roomID msg room hroom (hinv.1 roomID room hroom).1
        (fun c hc => ((hinv.1 roomID room hroom).2 c hc).1)).1
  · intro c hclosed
    have hnm : ∀ roomID, ¬ memberOf w roomID c := fun roomID hm => by
      have := hopen roomID c hm
      rw [hclosed] at this
      exact Bool.noConfusion this
    refine ⟨hnm, fun roomID msg => ?_⟩
    cases hroom : w.rooms roomID with
    | none => simp [BroadcastLocal, step_external, stepFanOut, hroom]
    | some room =>
      have := run_external_nonmember roomID c [msg] w room hroom (hinv.1 roomID room hroom).1
        (fun x hx => ((hinv.1 roomID room hroom).2 x hx).1) (fun hx => hnm roomID ⟨room, hroom, hx⟩)
      obtain ⟨k1, k2, k3⟩ := this
      have hp := (step_external_open w roomID msg room hroom (hinv.1 roomID room hroom).1
        (fun x hx => ((hinv.1 roomID room hroom).2 x hx).1)).1
      simp only [List.map_cons, List.map_nil, Hub.Run, BroadcastLocal, hp, List.append_nil] at k2 k3
      exact ⟨k2, k3⟩
  · intro a b msg hab hroom
    have hba : ¬ b = a := fun h => hab h.symm
    simp [Hub.Run, step, stepRegister, stepUnregister, stepBroadcast, stepPublish, stepFanOut,
      fanOut, trySend, closeChan, NewHub, NewRoom, makeChan, BroadcastLocal, hroom, hab, hba,
      Function.update_noteq hab]

/-- Witness of C9: `hubTwo` is reachable, `E1` is a member of its room "general" and the
queue of `E1` is open. -/
theorem no_stale_closed_endpoints_witness :
    Reachable okProducer true [E2, E1] hubTwo ∧ (hubTwo.send E1).closed = false :=
  have hr : Reachable okProducer true [E2, E1] hubTwo :=
    Reachable.register E2 (Reachable.register E1 Reachable.init (by decide)) (by decide)
  ⟨hr, (no_stale_closed_endpoints okProducer true [E2, E1] hubTwo hr).1 general E1
    ⟨{ ID := general, clients := [E1, E2] }, by decide, by decide⟩⟩

/-! ## unicode/utf8: decoding and encoding one rune -/

theorem decodeRune_size_pos (c : Nat) (rest : Bytes) : 1 ≤ (DecodeRune (c :: rest)).2 := by
  simp only [DecodeRune]
  repeat' split
  all_goals simp

theorem firstInfo_some (p0 sz lo hi : Nat) (h : firstInfo p0 = some (sz, lo, hi)) :
    0x80 ≤ lo ∧ hi ≤ 0xBF ∧
    ((sz = 2 ∧ 0xC2 ≤ p0 ∧ p0 ≤ 0xDF) ∨
     (sz = 3 ∧ 0xE0 ≤ p0 ∧ p0 ≤ 0xEF ∧ (p0 = 0xE0 → lo = 0xA0) ∧ (p0 = 0xED → hi = 0x9F)) ∨
     (sz = 4 ∧ 0xF0 ≤ p0 ∧ p0 ≤ 0xF4 ∧ (p0 = 0xF0 → lo = 0x90) ∧ (p0 = 0xF4 → hi = 0x8F))) := by
  unfold firstInfo at h
  split_ifs at h <;> simp only [Option.some.injEq, Prod.mk.injEq] at h <;>
    obtain ⟨rfl, rfl, rfl⟩ := h <;> omega

theorem decodeRune_multi (p0 : Nat) (rest : Bytes) (h0 : 0x80 ≤ p0)
    (hsz : 2 ≤ (DecodeRune (p0 :: rest)).2) :
    (DecodeRune (p0 :: rest)).2 ≤ (p0 :: rest).length ∧
    EncodeRune (DecodeRune (p0 :: rest)).1 = (p0 :: rest).take (DecodeRune (p0 :: rest)).2 ∧
    (∀ b ∈ (p0 :: rest).take (DecodeRune (p0 :: rest)).2, 0x80 ≤ b) ∧
    (∀ tail, DecodeRune ((p0 :: rest).take (DecodeRune (p0 :: rest)).2 ++ tail) =
      DecodeRune (p0 :: rest)) := by
  have hn : ¬ p0 < 0x80 := by omega
  cases hfi : firstInfo p0 with
  | none => simp [DecodeRune, hn, hfi] at hsz
  | some t =>
    obtain ⟨sz, lo, hi⟩ := t
    obtain ⟨hlo, hhi, hcases⟩ := firstInfo_some p0 sz lo hi hfi
    rcases rest with _ | ⟨b1, rest1⟩
    · exfalso
      simp only [DecodeRune, hn, hfi, if_false] at hsz
      split_ifs at hsz <;> simp at hsz
    · by_cases hb1 : b1 < lo ∨ hi < b1
      · exfalso
        simp only [DecodeRune, hn, hfi, if_false, hb1, if_true] at hsz
        split_ifs at hsz <;> simp at hsz
      · rcases hcases with ⟨rfl, h1, h2⟩ | ⟨rfl, h1, h2, h3, h4⟩ | ⟨rfl, h1, h2, h3, h4⟩
        · -- two bytes
          have hD : ∀ tail, DecodeRune (p0 :: b1 :: tail) = ((p0 % 32) * 64 + b1 % 64, 2) := by
            intro tail; simp [DecodeRune, hn, hfi, hb1]
          rw [hD rest1]
          refine ⟨by simp, ?_, ?_, fun tail => by simpa using hD (rest1.take 0 ++ tail)⟩
          · simp only [EncodeRune, List.take_succ_cons, List.take_zero]
            rw [if_neg (by omega), if_pos (by omega)]
            congr 1
            · omega
            · congr 1; omega
          · intro b hb
            simp at hb
            omega
        · -- three bytes
          rcases rest1 with _ | ⟨b2, rest2⟩
          · exfalso
            simp [DecodeRune, hn, hfi, hb1] at hsz
          · by_cases hb2 : b2 < 0x80 ∨ 0xBF < b2
            · exfalso
              simp [DecodeRune, hn, hfi, hb1, hb2] at hsz
            · have hD : ∀ tail, DecodeRune (p0 :: b1 :: b2 :: tail) =
                  ((p0 % 16) * 4096 + (b1 % 64) * 64 + b2 % 64, 3) := by
                intro tail; simp [DecodeRune, hn, hfi, hb1, hb2]
              rw [hD rest2]
              refine ⟨by simp, ?_, ?_, fun tail => by simpa using hD (rest2.take 0 ++ tail)⟩
              · simp only [EncodeRune, MaxRune, encode3, List.take_succ_cons, List.take_zero]
                rw [if_neg (by omega), if_neg (by omega), if_neg (by omega), if_pos (by omega)]
                congr 1
                · omega
                · congr 1
                  · omega
                  · congr 1; omega
              · intro b hb
                simp at hb
                omega
        · -- four bytes
          rcases rest1 with _ | ⟨b2, rest2⟩
          · exfalso
            simp [DecodeRune, hn, hfi, hb1] at hsz
          · by_cases hb2 : b2 < 0x80 ∨ 0xBF < b2
            · exfalso
              simp [DecodeRune, hn, hfi, hb1, hb2] at hsz
            · rcases rest2 with _ | ⟨b3, rest3⟩
              · exfalso
                simp [DecodeRune, hn, hfi, hb1, hb2] at hsz
              · by_cases hb3 : b3 < 0x80 ∨ 0xBF < b3
                · exfalso
                  simp [DecodeRune, hn, hfi, hb1, hb2, hb3] at hsz
                · have hD : ∀ tail, DecodeRune (p0 :: b1 :: b2 :: b3 :: tail) =
                      ((p0 % 8) * 262144 + (b1 % 64) * 4096 + (b2 % 64) * 64 + b3 % 64, 4) := by
                    intro tail; simp [DecodeRune, hn, hfi, hb1, hb2, hb3]
                  rw [hD rest3]
                  refine ⟨by simp, ?_, ?_, fun tail => by simpa using hD (rest3.take 0 ++ tail)⟩
                  · simp only [EncodeRune, MaxRune, List.take_succ_cons, List.take_zero]
                    rw [if_neg (by omega), if_neg (by omega), if_neg (by omega),
                      if_neg (by omega)]
                    congr 1
                    · omega
                    · congr 1
                      · omega
                      · congr 1
                        · omega
                        · congr 1; omega
                  · intro b hb
                    simp at hb
                    omega

theorem decodeRune_invalid (b : Nat) (rest : Bytes) (hb : ¬ b < 0x80)
    (hsz : (DecodeRune (b :: rest)).2 ≤ 1) : DecodeRune (b :: rest) = (RuneError, 1) := by
  revert hsz
  simp only [DecodeRune, hb, if_false]
  repeat' split
  all_goals simp

theorem coerceLoop_length : ∀ (f : Nat) (t : Bytes), t.length ≤ f →
    t.length ≤ (coerceLoop f t).length := by
  intro f
  induction f with
  | zero =>
    intro t ht
    have : t = [] := List.length_eq_zero.mp (Nat.le_zero.mp ht)
    subst this
    simp
  | succ f ihf =>
    intro t ht
    rcases t with _ | ⟨c, t⟩
    · simp
    · simp only [coerceLoop]
      have htl : t.length ≤ f := by simpa using ht
      have he : (EncodeRune RuneError).length = 3 := by decide
      split_ifs with g1 g2
      · simpa using ihf t htl
      · have := ihf t htl
        simp only [List.length_append, List.length_cons, he]
        omega
      · have hpos := decodeRune_size_pos c t
        have := ihf ((c :: t).drop (DecodeRune (c :: t)).2)
          (by rw [List.length_drop]; simp only [List.length_cons] at ht ⊢; omega)
        rw [List.length_append, List.length_take]
        rw [List.length_drop] at this
        simp only [List.length_cons] at this ⊢
        omega

theorem coerceLoop_valid : ∀ (fuel : Nat) (s : Bytes), s.length ≤ fuel →
    (validLoop fuel s = true ↔ coerceLoop fuel s = s) := by
  intro fuel
  induction fuel with
  | zero =>
    intro s hlen
    have : s = [] := List.length_eq_zero.mp (Nat.le_zero.mp hlen)
    subst this
    simp [validLoop, coerceLoop]
  | succ fuel ih =>
    intro s hlen
    rcases s with _ | ⟨p0, rest⟩
    · simp [validLoop, coerceLoop]
    · simp only [validLoop, coerceLoop]
      have hlr : rest.length ≤ fuel := by simpa using hlen
      by_cases h0 : p0 < 0x80
      · simp only [h0, if_true, List.cons.injEq, true_and]
        exact ih rest hlr
      · simp only [h0, if_false]
        by_cases hsz : (DecodeRune (p0 :: rest)).2 ≤ 1
        · simp only [hsz, if_true, Bool.false_eq_true, false_iff]
          intro hc
          have hl := congrArg List.length hc
          have := coerceLoop_length fuel rest hlr
          have he : (EncodeRune RuneError).length = 3 := by decide
          simp only [List.length_append, List.length_cons, he] at hl
          omega
        · simp only [hsz, if_false]
          have hpos := decodeRune_size_pos p0 rest
          rw [ih ((p0 :: rest).drop (DecodeRune (p0 :: rest)).2)
            (by rw [List.length_drop]; simp only [List.length_cons] at hlen ⊢; omega)]
          constructor
          · intro h
            rw [h, List.take_append_drop]
          · intro h
            have h2 : (p0 :: rest).take (DecodeRune (p0 :: rest)).2 ++
                coerceLoop fuel ((p0 :: rest).drop (DecodeRune (p0 :: rest)).2) =
                (p0 :: rest).take (DecodeRune (p0 :: rest)).2 ++
                (p0 :: rest).drop (DecodeRune (p0 :: rest)).2 := by
              rw [List.take_append_drop]; exact h
            exact List.append_cancel_left h2

/-- The coercion leaves a string as it is exactly when the string is valid UTF-8. -/
theorem toValidUTF8_eq_self (s : Bytes) : toValidUTF8 s = s ↔ Valid s = true :=
  (coerceLoop_valid s.length s (Nat.le_refl _)).symm

theorem appendStringLoop_ascii (sb : Bool) (fuel b : Nat) (rest : Bytes) (hb : b < 0x80) :
    appendStringLoop sb (fuel + 1) (b :: rest) = encAscii sb b ++ appendStringLoop sb fuel rest := by
  simp [appendStringLoop, hb, encAscii]

theorem appendStringLoop_invalid (sb : Bool) (fuel b : Nat) (rest : Bytes) (hb : ¬ b < 0x80)
    (hsz : (DecodeRune (b :: rest)).2 ≤ 1) :
    appendStringLoop sb (fuel + 1) (b :: rest) =
      asciiBytes "\\ufffd" ++ appendStringLoop sb fuel rest := by
  simp [appendStringLoop, hb, decodeRune_invalid b rest hb hsz]

theorem appendStringLoop_multi (sb : Bool) (fuel : Nat) (u rest : Bytes) (r : Nat)
    (hlen : 2 ≤ u.length) (hhi : ∀ b ∈ u, 0x80 ≤ b)
    (hdec : ∀ tail, DecodeRune (u ++ tail) = (r, u.length)) :
    appendStringLoop sb (fuel + 1) (u ++ rest) = encMulti u r ++ appendStringLoop sb fuel rest := by
  rcases u with _ | ⟨p0, u2⟩
  · simp at hlen
  · have h0 : ¬ p0 < 0x80 := by have := hhi p0 (List.mem_cons_self _ _); omega
    have hne : ¬ (p0 :: u2).length = 1 := by omega
    have hd := hdec rest
    simp only [List.cons_append] at hd
    simp only [List.cons_append, appendStringLoop, h0, if_false, hd, hne, and_false, encMulti]
    have ht : List.take (p0 :: u2).length (p0 :: (u2 ++ rest)) = p0 :: u2 := by
      rw [← List.cons_append, List.take_left']; rfl
    have hdr : List.drop (p0 :: u2).length (p0 :: (u2 ++ rest)) = rest := by
      rw [← List.cons_append, List.drop_left']; rfl
    rw [ht, hdr]
    split_ifs <;> simp

/-! ## encoding/json: one unit of a string literal -/

theorem hexValue_hex (n : Nat) (h : n < 16) : hexValue (hex n) = some n := by
  interval_cases n <;> decide

theorem asciiBytes_u202 : asciiBytes "\\u202" = [0x5C, 0x75, 0x32, 0x30, 0x32] := by decide

theorem asciiBytes_ufffd : asciiBytes "\\ufffd" = [0x5C, 0x75, 0x66, 0x66, 0x66, 0x64] := by decide

theorem not_htmlSafe (b : Nat) (hb : b < 0x80) (h : htmlSafe b = false) :
    b < 0x20 ∨ b = 0x22 ∨ b = 0x26 ∨ b = 0x3C ∨ b = 0x3E ∨ b = 0x5C := by
  simp only [htmlSafe, decide_eq_false_iff_not] at h
  omega

theorem scan_plain (c : Nat) (X : Bytes) (h1 : 0x20 ≤ c) (h2 : c ≠ 0x22) (h3 : c ≠ 0x5C) :
    scanString .inString (c :: X) = (scanString .inString X).map fun r => (c :: r.1, r.2) := by
  have : ¬ c < 0x20 := by omega
  simp [scanString, h2, h3, this]

theorem scan_escape (d : Nat) (X : Bytes)
    (hd : d = 0x62 ∨ d = 0x66 ∨ d = 0x6E ∨ d = 0x72 ∨ d = 0x74 ∨ d = 0x5C ∨ d = 0x2F ∨ d = 0x22) :
    scanString .inString (0x5C :: d :: X) =
      (scanString .inString X).map fun r => (0x5C :: d :: r.1, r.2) := by
  simp [scanString, hd, Option.map_map, Function.comp_def]

theorem scan_escapeU (a b c d : Nat) (X : Bytes) (ha : (hexValue a).isSome = true)
    (hb : (hexValue b).isSome = true) (hc : (hexValue c).isSome = true)
    (hd : (hexValue d).isSome = true) :
    scanString .inString (0x5C :: 0x75 :: a :: b :: c :: d :: X) =
      (scanString .inString X).map fun r => (0x5C :: 0x75 :: a :: b :: c :: d :: r.1, r.2) := by
  simp [scanString, ha, hb, hc, hd, Option.map_map, Function.comp_def]

theorem scan_encAscii (sb : Bool) (b : Nat) (X : Bytes) (hb : b < 0x80) :
    scanString .inString (encAscii sb b ++ X) =
      (scanString .inString X).map fun r => (encAscii sb b ++ r.1, r.2) := by
  unfold encAscii
  cases hs : htmlSafe b with
  | true =>
    simp only [htmlSafe, decide_eq_true_eq] at hs
    simp only [if_true, List.singleton_append]
    exact scan_plain b X hs.1 hs.2.2.1 hs.2.2.2.2.2.2
  | false =>
    have hcases := not_htmlSafe b hb hs
    have h1 := hexValue_hex (b / 16) (by omega)
    have h2 := hexValue_hex (b % 16) (by omega)
    simp only [Bool.false_eq_true, if_false]
    unfold escapeByte
    split_ifs with c1 c2 c3 c4 c5 c6
    · rcases c1 with rfl | rfl <;> exact scan_escape _ X (by simp)
    · exact scan_escape _ X (by simp)
    · exact scan_escape _ X (by simp)
    · exact scan_escape _ X (by simp)
    · exact scan_escape _ X (by simp)
    · exact scan_escape _ X (by simp)
    · exact scan_escapeU _ _ _ _ X (by decide) (by decide) (by simp [h1]) (by simp [h2])

theorem scan_ufffd (X : Bytes) :
    scanString .inString (asciiBytes "\\ufffd" ++ X) =
      (scanString .inString X).map fun r => (asciiBytes "\\ufffd" ++ r.1, r.2) := by
  rw [asciiBytes_ufffd]
  exact scan_escapeU 0x66 0x66 0x66 0x64 X (by decide) (by decide) (by decide) (by decide)

theorem unq_plain (f c : Nat) (X : Bytes) (h1 : 0x20 ≤ c) (h2 : c ≠ 0x22) (h3 : c ≠ 0x5C)
    (h4 : c < 0x80) :
    unquoteLoop (f + 1) (c :: X) = (unquoteLoop f X).map fun t => c :: t := by
  have : ¬ c < 0x20 := by omega
  simp [unquoteLoop, h2, h3, this, h4]

theorem unq_escapeU (f a b c d rr : Nat) (X : Bytes)
    (hg : getu4 (0x5C :: 0x75 :: a :: b :: c :: d :: X) = some rr)
    (hrr : ¬ (0xD800 ≤ rr ∧ rr < 0xE000)) :
    unquoteLoop (f + 1) (0x5C :: 0x75 :: a :: b :: c :: d :: X) =
      (unquoteLoop f X).map fun t => EncodeRune rr ++ t := by
  simp [unquoteLoop, hg, hrr]

theorem unq_encAscii (sb : Bool) (f b : Nat) (X : Bytes) (hb : b < 0x80) :
    unquoteLoop (f + 1) (encAscii sb b ++ X) = (unquoteLoop f X).map fun t => b :: t := by
  unfold encAscii
  cases hs : htmlSafe b with
  | true =>
    simp only [htmlSafe, decide_eq_true_eq] at hs
    simp only [if_true, List.singleton_append]
    exact unq_plain f b X hs.1 hs.2.2.1 hs.2.2.2.2.2.2 hb
  | false =>
    have hcases := not_htmlSafe b hb hs
    have h1 := hexValue_hex (b / 16) (by omega)
    have h2 := hexValue_hex (b % 16) (by omega)
    simp only [Bool.false_eq_true, if_false]
    unfold escapeByte
    split_ifs with c1 c2 c3 c4 c5 c6
    · rcases c1 with rfl | rfl <;> simp [unquoteLoop]
    · simp [unquoteLoop, c2.1]
    · simp [unquoteLoop, c3.1]
    · simp [unquoteLoop, c4]
    · simp [unquoteLoop, c5]
    · simp [unquoteLoop, c6]
    · have hg : getu4 (0x5C :: 0x75 :: 0x30 :: 0x30 :: hex (b / 16) :: hex (b % 16) :: X) =
          some b := by
        simp only [getu4, h1, h2]
        have e0 : hexValue 0x30 = some 0 := by decide
        simp only [e0, Option.some.injEq]
        omega
      have he : EncodeRune b = [b] := by
        simp only [EncodeRune]
        rw [if_pos (by omega)]
      have := unq_escapeU f 0x30 0x30 (hex (b / 16)) (hex (b % 16)) b X hg (by omega)
      rw [he] at this
      simpa using this

theorem plainLen_encAscii (sb : Bool) (f b : Nat) (X : Bytes) (hb : b < 0x80) :
    plainLen (f + 1) (encAscii sb b ++ X) = if htmlSafe b then 1 + plainLen f X else 0 := by
  unfold encAscii
  cases hs : htmlSafe b with
  | true =>
    simp only [htmlSafe, decide_eq_true_eq] at hs
    have : ¬ b < 0x20 := by omega
    simp [plainLen, hs.2.2.1, hs.2.2.2.2.2.2, this, hb]
  | false =>
    simp only [Bool.false_eq_true, if_false]
    unfold escapeByte
    split_ifs <;> simp [plainLen]

theorem scan_high (u X : Bytes) (hhi : ∀ b ∈ u, 0x80 ≤ b) :
    scanString .inString (u ++ X) = (scanString .inString X).map fun r => (u ++ r.1, r.2) := by
  induction u with
  | nil => simp
  | cons c u ih =>
    have hc := hhi c (List.mem_cons_self _ _)
    rw [List.cons_append, scan_plain c (u ++ X) (by omega) (by omega) (by omega),
      ih (fun b hb => hhi b (List.mem_cons_of_mem _ hb))]
    simp [Option.map_map, Function.comp_def]

theorem scan_encMulti (u X : Bytes) (r : Nat) (hhi : ∀ b ∈ u, 0x80 ≤ b) :
    scanString .inString (encMulti u r ++ X) =
      (scanString .inString X).map fun t => (encMulti u r ++ t.1, t.2) := by
  unfold encMulti
  split_ifs with h
  · rw [asciiBytes_u202]
    have hh := hexValue_hex (r % 16) (by omega)
    exact scan_escapeU 0x32 0x30 0x32 (hex (r % 16)) X (by decide) (by decide) (by decide)
      (by simp [hh])
  · exact scan_high u X hhi

theorem unq_encMulti (f : Nat) (u X : Bytes) (r : Nat) (hlen : 2 ≤ u.length)
    (hhi : ∀ b ∈ u, 0x80 ≤ b) (hdec : ∀ tail, DecodeRune (u ++ tail) = (r, u.length))
    (henc : EncodeRune r = u) :
    unquoteLoop (f + 1) (encMulti u r ++ X) = (unquoteLoop f X).map fun t => u ++ t := by
  unfold encMulti
  split_ifs with h
  · rw [asciiBytes_u202]
    have hh := hexValue_hex (r % 16) (by omega)
    have hg : getu4 (0x5C :: 0x75 :: 0x32 :: 0x30 :: 0x32 :: hex (r % 16) :: X) = some r := by
      simp only [getu4, hh]
      have e0 : hexValue 0x30 = some 0 := by decide
      have e2 : hexValue 0x32 = some 2 := by decide
      simp only [e0, e2, Option.some.injEq]
      omega
    have := unq_escapeU f 0x32 0x30 0x32 (hex (r % 16)) r X hg (by omega)
    rw [henc] at this
    simpa using this
  · rcases u with _ | ⟨p0, u2⟩
    · simp at hlen
    · have h0 := hhi p0 (List.mem_cons_self _ _)
      have hd := hdec X
      simp only [List.cons_append] at hd
      have hdr : List.drop (p0 :: u2).length (p0 :: (u2 ++ X)) = X := by
        rw [← List.cons_append, List.drop_left']; rfl
      have c1 : p0 ≠ 0x5C := by omega
      have c2 : ¬ (p0 = 0x22 ∨ p0 < 0x20) := by omega
      have c3 : ¬ p0 < 0x80 := by omega
      simp only [List.cons_append, unquoteLoop, c1, c2, c3, if_false, hd, hdr, henc]

theorem plainLen_encMulti (f : Nat) (u X : Bytes) (r : Nat) (hlen : 2 ≤ u.length)
    (hhi : ∀ b ∈ u, 0x80 ≤ b) (hdec : ∀ tail, DecodeRune (u ++ tail) = (r, u.length)) :
    plainLen (f + 1) (encMulti u r ++ X) =
      if r = 0x2028 ∨ r = 0x2029 then 0 else u.length + plainLen f X := by
  unfold encMulti
  split_ifs with h
  · rw [asciiBytes_u202]; simp [plainLen]
  · rcases u with _ | ⟨p0, u2⟩
    · simp at hlen
    · have h0 := hhi p0 (List.mem_cons_self _ _)
      have hd := hdec X
      simp only [List.cons_append] at hd
      have hdr : List.drop (p0 :: u2).length (p0 :: (u2 ++ X)) = X := by
        rw [← List.cons_append, List.drop_left']; rfl
      have c1 : ¬ (p0 = 0x5C ∨ p0 = 0x22 ∨ p0 < 0x20) := by omega
      have c3 : ¬ p0 < 0x80 := by omega
      have c4 : ¬ (p0 :: u2).length = 1 := by omega
      simp only [List.cons_append, plainLen, c1, c3, if_false, hd, hdr, c4, and_false]

theorem unq_ufffd (f : Nat) (X : Bytes) :
    unquoteLoop (f + 1) (asciiBytes "\\ufffd" ++ X) =
      (unquoteLoop f X).map fun t => EncodeRune RuneError ++ t := by
  rw [asciiBytes_ufffd]
  have e6 : hexValue 0x66 = some 15 := by decide
  have e4 : hexValue 0x64 = some 13 := by decide
  have hg : getu4 (0x5C :: 0x75 :: 0x66 :: 0x66 :: 0x66 :: 0x64 :: X) = some RuneError := by
    simp only [getu4, e6, e4]; rfl
  exact unq_escapeU f 0x66 0x66 0x66 0x64 RuneError X hg (by decide)

theorem plainLen_ufffd (f : Nat) (X : Bytes) :
    plainLen (f + 1) (asciiBytes "\\ufffd" ++ X) = 0 := by
  rw [asciiBytes_ufffd]; simp [plainLen]

/-! ## encoding/json: the round trip of a string and of the envelope -/

theorem unquoteLoop_nil (f : Nat) : unquoteLoop f [] = some [] := by
  cases f <;> simp [unquoteLoop]

theorem encAscii_length_pos (sb : Bool) (b : Nat) : 1 ≤ (encAscii sb b).length := by
  unfold encAscii escapeByte
  split_ifs <;> simp

theorem encMulti_length_pos (u : Bytes) (r : Nat) (h : 2 ≤ u.length) :
    1 ≤ (encMulti u r).length := by
  unfold encMulti
  split_ifs
  · simp
  · omega

/-- One more unit in front: if the literal `E` of `t` is scanned and unquoted to `out`,
then so is `unit ++ E` to `x ++ out`, where `unit` is scanned as part of a literal, the
second loop of `unquoteBytes` turns `unit` into `x`, and the first loop either stops at
`unit` or passes over `unit`, which is then `x` itself. -/
theorem roundtrip_step (unit x E out : Bytes) (hpos : 1 ≤ unit.length)
    (hscan : ∀ Y, scanString .inString (unit ++ Y) =
      (scanString .inString Y).map fun r => (unit ++ r.1, r.2))
    (hunq : ∀ f Y, unquoteLoop (f + 1) (unit ++ Y) = (unquoteLoop f Y).map fun t => x ++ t)
    (hplain : ∀ f Y, plainLen (f + 1) (unit ++ Y) = 0 ∨
      (plainLen (f + 1) (unit ++ Y) = unit.length + plainLen f Y ∧ unit = x))
    (ih1 : ∀ X, scanString .inString (E ++ 0x22 :: X) = some (E, X))
    (ih2 : ∀ f2, E.length ≤ f2 → unquoteLoop f2 E = some out)
    (ih3 : ∀ f1 f2, E.length ≤ f2 →
      (unquoteLoop f2 (E.drop (plainLen f1 E))).map (fun t => E.take (plainLen f1 E) ++ t) =
        some out) :
    (∀ X, scanString .inString ((unit ++ E) ++ 0x22 :: X) = some (unit ++ E, X)) ∧
    (∀ f2, (unit ++ E).length ≤ f2 → unquoteLoop f2 (unit ++ E) = some (x ++ out)) ∧
    (∀ f1 f2, (unit ++ E).length ≤ f2 →
      (unquoteLoop f2 ((unit ++ E).drop (plainLen f1 (unit ++ E)))).map
        (fun t => (unit ++ E).take (plainLen f1 (unit ++ E)) ++ t) = some (x ++ out)) := by
  have hsec : ∀ f2, (unit ++ E).length ≤ f2 → unquoteLoop f2 (unit ++ E) = some (x ++ out) := by
    intro f2 hf2
    obtain ⟨f2, rfl⟩ : ∃ k, f2 = k + 1 := ⟨f2 - 1, by simp at hf2; omega⟩
    rw [hunq f2 E, ih2 f2 (by simp at hf2; omega)]
    rfl
  refine ⟨fun X => ?_, hsec, fun f1 f2 hf2 => ?_⟩
  · rw [List.append_assoc, hscan, ih1 X]
    rfl
  · rcases f1 with _ | f1
    · simpa [plainLen] using hsec f2 hf2
    · rcases hplain f1 E with h0 | ⟨hp, hx⟩
      · rw [h0]
        simpa using hsec f2 hf2
      · rw [hp]
        have := ih3 f1 f2 (by simp at hf2; omega)
        rw [Option.map_eq_some'] at this ⊢
        obtain ⟨t, ht1, ht2⟩ := this
        refine ⟨t, ?_, ?_⟩
        · rw [← List.drop_drop, List.drop_left]; exact ht1
        · rw [List.take_add, List.take_left, List.drop_left, List.append_assoc, ht2, hx]

/-- The literal `appendString` writes for a string is scanned up to its closing quote
and unquoted, by either loop of `unquoteBytes`, to the string coerced to valid UTF-8. -/
theorem roundtrip_loop (sb : Bool) : ∀ (fuel : Nat) (s : Bytes), s.length ≤ fuel →
    (∀ X, scanString .inString (appendStringLoop sb fuel s ++ 0x22 :: X) =
      some (appendStringLoop sb fuel s, X)) ∧
    (∀ f2, (appendStringLoop sb fuel s).length ≤ f2 →
      unquoteLoop f2 (appendStringLoop sb fuel s) = some (coerceLoop fuel s)) ∧
    (∀ f1 f2, (appendStringLoop sb fuel s).length ≤ f2 →
      (unquoteLoop f2 ((appendStringLoop sb fuel s).drop
        (plainLen f1 (appendStringLoop sb fuel s)))).map
        (fun t => (appendStringLoop sb fuel s).take
          (plainLen f1 (appendStringLoop sb fuel s)) ++ t) = some (coerceLoop fuel s)) := by
  intro fuel
  induction fuel with
  | zero =>
    intro s hlen
    have : s = [] := List.length_eq_zero.mp (Nat.le_zero.mp hlen)
    subst this
    refine ⟨fun X => by simp [appendStringLoop, scanString], fun f2 _ => unquoteLoop_nil f2,
      fun f1 f2 _ => ?_⟩
    have : plainLen f1 [] = 0 := by cases f1 <;> rfl
    simp [appendStringLoop, coerceLoop, this, unquoteLoop_nil]
  | succ fuel ih =>
    intro s hlen
    rcases s with _ | ⟨b, rest⟩
    · refine ⟨fun X => by simp [appendStringLoop, scanString], fun f2 _ => unquoteLoop_nil f2,
        fun f1 f2 _ => ?_⟩
      have : plainLen f1 [] = 0 := by cases f1 <;> rfl
      simp [appendStringLoop, coerceLoop, this, unquoteLoop_nil]
    · have hlr : rest.length ≤ fuel := by simpa using hlen
      by_cases hb : b < 0x80
      · -- an ASCII byte
        obtain ⟨ih1, ih2, ih3⟩ := ih rest hlr
        rw [appendStringLoop_ascii sb fuel b rest hb]
        have hc : coerceLoop (fuel + 1) (b :: rest) = [b] ++ coerceLoop fuel rest := by
          simp [coerceLoop, hb]
        rw [hc]
        refine roundtrip_step (encAscii sb b) [b] _ _ (encAscii_length_pos sb b)
          (fun Y => scan_encAscii sb b Y hb) (fun f Y => unq_encAscii sb f b Y hb)
          (fun f Y => ?_) ih1 ih2 ih3
        rw [plainLen_encAscii sb f b Y hb]
        cases hs : htmlSafe b with
        | false => exact Or.inl rfl
        | true =>
          have he : encAscii sb b = [b] := by simp [encAscii, hs]
          refine Or.inr ⟨?_, he⟩
          simp [he, Nat.add_comm]
      · by_cases hsz : (DecodeRune (b :: rest)).2 ≤ 1
        · -- a byte that belongs to no well-formed sequence
          obtain ⟨ih1, ih2, ih3⟩ := ih rest hlr
          rw [appendStringLoop_invalid sb fuel b rest hb hsz]
          have hc : coerceLoop (fuel + 1) (b :: rest) =
              EncodeRune RuneError ++ coerceLoop fuel rest := by
            simp [coerceLoop, hb, hsz]
          rw [hc]
          exact roundtrip_step (asciiBytes "\\ufffd") (EncodeRune RuneError) _ _
            (by rw [asciiBytes_ufffd]; simp) scan_ufffd unq_ufffd
            (fun f Y => Or.inl (plainLen_ufffd f Y)) ih1 ih2 ih3
        · -- a well-formed multi-byte sequence
          obtain ⟨h1, h2, h3, h4⟩ := decodeRune_multi b rest (by omega) (by omega)
          have hlt : ((b :: rest).take (DecodeRune (b :: rest)).2).length =
              (DecodeRune (b :: rest)).2 := by
            rw [List.length_take]; exact Nat.min_eq_left h1
          have hdec : ∀ tail, DecodeRune ((b :: rest).take (DecodeRune (b :: rest)).2 ++ tail) =
              ((DecodeRune (b :: rest)).1, ((b :: rest).take (DecodeRune (b :: rest)).2).length) :=
            fun tail => by rw [h4 tail, hlt]
          have hul : 2 ≤ ((b :: rest).take (DecodeRune (b :: rest)).2).length := by
            rw [hlt]; omega
          obtain ⟨ih1, ih2, ih3⟩ := ih ((b :: rest).drop (DecodeRune (b :: rest)).2)
            (by rw [List.length_drop]; simp only [List.length_cons] at hlen ⊢; omega)
          have hc : coerceLoop (fuel + 1) (b :: rest) =
              (b :: rest).take (DecodeRune (b :: rest)).2 ++
                coerceLoop fuel ((b :: rest).drop (DecodeRune (b :: rest)).2) := by
            simp [coerceLoop, hb, hsz]
          have happ := appendStringLoop_multi sb fuel _
            ((b :: rest).drop (DecodeRune (b :: rest)).2) _ hul h3 hdec
          rw [List.take_append_drop] at happ
          rw [hc, happ]
          refine roundtrip_step _ _ _ _ (encMulti_length_pos _ _ hul)
            (fun Y => scan_encMulti _ Y _ h3)
            (fun f Y => unq_encMulti f _ Y _ hul h3 hdec h2)
            (fun f Y => ?_) ih1 ih2 ih3
          rw [plainLen_encMulti f _ Y _ hul h3 hdec]
          by_cases hr : (DecodeRune (b :: rest)).1 = 0x2028 ∨ (DecodeRune (b :: rest)).1 = 0x2029
          · exact Or.inl (by simp [hr])
          · refine Or.inr ⟨?_, ?_⟩
            · simp [hr, encMulti]
            · simp [encMulti, hr]

theorem unquote_appendStringLoop (sb : Bool) (s : Bytes) :
    unquote (appendStringLoop sb s.length s) = some (toValidUTF8 s) := by
  obtain ⟨-, -, h3⟩ := roundtrip_loop sb s.length s (Nat.le_refl _)
  have h3 := h3 (appendStringLoop sb s.length s).length (appendStringLoop sb s.length s).length
    (Nat.le_refl _)
  unfold unquote
  split_ifs with hp
  · rw [hp, List.drop_length, unquoteLoop_nil, List.take_length] at h3
    simpa [toValidUTF8] using h3
  · exact h3

/-- The string round trip: a literal written by `appendString` is read back as the
string coerced to valid UTF-8, and the input after it is left. -/
theorem parseString_appendString (sb : Bool) (s X : Bytes) :
    parseString (appendString sb s ++ X) = some (toValidUTF8 s, X) := by
  obtain ⟨h1, -, -⟩ := roundtrip_loop sb s.length s (Nat.le_refl _)
  have : appendString sb s ++ X = 0x22 :: (appendStringLoop sb s.length s ++ 0x22 :: X) := by
    simp [appendString]
  rw [this]
  simp only [parseString, if_true, h1 X, unquote_appendStringLoop sb s]
  rfl

/-- The envelope round trip: what `json.Unmarshal` reads from the envelope `json.Marshal`
wrote is the room id and the message coerced to valid UTF-8. -/
theorem unmarshal_marshalEnvelope (sb : Bool) (roomID msg : Bytes) :
    Unmarshal (marshalEnvelope sb roomID msg) = .ok ⟨toValidUTF8 roomID, toValidUTF8 msg⟩ := by
  have hshape : ∀ s X, appendString sb s ++ X =
      0x22 :: (appendStringLoop sb s.length s ++ 0x22 :: X) := by
    intro s X; simp [appendString]
  have p : ∀ s X,
      parseString (0x22 :: (appendStringLoop sb s.length s ++ 0x22 :: X)) =
        some (toValidUTF8 s, X) := by
    intro s X
    rw [← hshape]
    exact parseString_appendString sb s X
  have hk1 : toValidUTF8 (asciiBytes "message") = asciiBytes "message" := by decide
  have hk2 : toValidUTF8 (asciiBytes "room_id") = asciiBytes "room_id" := by decide
  have p1 := fun X => p (asciiBytes "message") X
  have p2 := fun X => p msg X
  have p3 := fun X => p (asciiBytes "room_id") X
  have p4 := fun X => p roomID X
  rw [hk1] at p1
  rw [hk2] at p3
  have k12 : asciiBytes "message" ≠ asciiBytes "room_id" := by decide
  obtain ⟨n, hn⟩ : ∃ n, (marshalEnvelope sb roomID msg).length = n + 2 :=
    ⟨(marshalEnvelope sb roomID msg).length - 2, by simp [marshalEnvelope, appendString]⟩
  have hform : marshalEnvelope sb roomID msg =
      0x7B :: 0x22 :: (appendStringLoop sb (asciiBytes "message").length (asciiBytes "message") ++
        0x22 :: 0x3A :: 0x22 :: (appendStringLoop sb msg.length msg ++
        0x22 :: 0x2C :: 0x22 ::
          (appendStringLoop sb (asciiBytes "room_id").length (asciiBytes "room_id") ++
        0x22 :: 0x3A :: 0x22 :: (appendStringLoop sb roomID.length roomID ++
        [0x22, 0x7D])))) := by
    simp [marshalEnvelope, appendString]
  unfold Unmarshal
  rw [hn, hform]
  simp [skipSpace, isSpace, unmarshalMembers, p1, p2, p3, p4, k12]

/-- The members of the envelope `json.Marshal` writes: `message` and `room_id`, no
other, with the message and the room id coerced to valid UTF-8 as their values. -/
theorem jsonObject_marshalEnvelope (sb : Bool) (roomID msg : Bytes) :
    jsonObject (marshalEnvelope sb roomID msg) =
      some [(asciiBytes "message", toValidUTF8 msg), (asciiBytes "room_id", toValidUTF8 roomID)] := by
  have hshape : ∀ s X, appendString sb s ++ X =
      0x22 :: (appendStringLoop sb s.length s ++ 0x22 :: X) := by
    intro s X; simp [appendString]
  have p : ∀ s X,
      parseString (0x22 :: (appendStringLoop sb s.length s ++ 0x22 :: X)) =
        some (toValidUTF8 s, X) := by
    intro s X
    rw [← hshape]
    exact parseString_appendString sb s X
  have hk1 : toValidUTF8 (asciiBytes "message") = asciiBytes "message" := by decide
  have hk2 : toValidUTF8 (asciiBytes "room_id") = asciiBytes "room_id" := by decide
  have p1 := fun X => p (asciiBytes "message") X
  have p2 := fun X => p msg X
  have p3 := fun X => p (asciiBytes "room_id") X
  have p4 := fun X => p roomID X
  rw [hk1] at p1
  rw [hk2] at p3
  obtain ⟨n, hn⟩ : ∃ n, (marshalEnvelope sb roomID msg).length = n + 2 :=
    ⟨(marshalEnvelope sb roomID msg).length - 2, by simp [marshalEnvelope, appendString]⟩
  have hform : marshalEnvelope sb roomID msg =
      0x7B :: 0x22 :: (appendStringLoop sb (asciiBytes "message").length (asciiBytes "message") ++
        0x22 :: 0x3A :: 0x22 :: (appendStringLoop sb msg.length msg ++
        0x22 :: 0x2C :: 0x22 ::
          (appendStringLoop sb (asciiBytes "room_id").length (asciiBytes "room_id") ++
        0x22 :: 0x3A :: 0x22 :: (appendStringLoop sb roomID.length roomID ++
        [0x22, 0x7D])))) := by
    simp [marshalEnvelope, appendString]
  unfold jsonObject
  rw [hn, hform]
  simp [skipSpace, isSpace, objectMembers, p1, p2, p3, p4]

/-- C6 as amended, local publish. Whatever the room table holds under `roomID` and
whatever `Publish` returns, one iteration of `Hub.Run` on a Local event calls `Publish`
exactly once; it does not panic, and it leaves the room table and every queue as they
were; the only other thing it does is to log the error `Publish` returned, if any. The
bytes published are a JSON object with exactly two members, `message` and `room_id`,
whose values are the payload and the room id coerced to valid UTF-8, and `json.Unmarshal`
reads them so into `KafkaMessage`. When the room id and the payload are valid UTF-8 the
two members are `message` = the payload and `room_id` = the room id. For room "general"
and payload "hi" the envelope is the text `{"message":"hi","room_id":"general"}`, and with
a producer that is down the iteration publishes it, logs the error and goes on. -/
theorem local_publish (w : Hub) (roomID msg : Bytes) :
    (step w (BroadcastToRoom roomID msg)).actions.filter isPublish =
      [.publish (marshalEnvelope w.shortBF roomID msg)] ∧
    (step w (BroadcastToRoom roomID msg)).actions =
      (match w.producer w.published (marshalEnvelope w.shortBF roomID msg) with
       | none => [.publish (marshalEnvelope w.shortBF roomID msg)]
       | some err => [.publish (marshalEnvelope w.shortBF roomID msg), .log (.publishError err)]) ∧
    (step w (BroadcastToRoom roomID msg)).panic = none ∧
    (step w (BroadcastToRoom roomID msg)).world.rooms = w.rooms ∧
    (step w (BroadcastToRoom roomID msg)).world.send = w.send ∧
    (step w (BroadcastToRoom roomID msg)).world.published = w.published + 1 ∧
    (∀ payload, Action.publish payload ∈ (step w (BroadcastToRoom roomID msg)).actions →
      jsonObject payload = some [(asciiBytes "message", toValidUTF8 msg),
        (asciiBytes "room_id", toValidUTF8 roomID)] ∧
      Unmarshal payload = .ok ⟨toValidUTF8 roomID, toValidUTF8 msg⟩ ∧
      (Valid roomID = true → Valid msg = true →
        jsonObject payload = some [(asciiBytes "message", msg), (asciiBytes "room_id", roomID)] ∧
        Unmarshal payload = .ok ⟨roomID, msg⟩)) ∧
    marshalEnvelope w.shortBF general hi =
      [0x7B] ++ asciiBytes "\"message\":\"hi\",\"room_id\":\"general\"" ++ [0x7D] ∧
    (step (NewHub downProducer true) (BroadcastToRoom general hi)).actions =
      [.publish (marshalEnvelope true general hi),
       .log (.publishError (asciiBytes "broker down"))] ∧
    (step (NewHub downProducer true) (BroadcastToRoom general hi)).panic = none := by
  simp only [BroadcastToRoom, step_local]
  refine ⟨?_, ?_, trivial, trivial, trivial, trivial, ?_, ?_, by decide, trivial⟩
  · cases w.producer w.published (marshalEnvelope w.shortBF roomID msg) <;> simp [isPublish]
  · cases w.producer w.published (marshalEnvelope w.shortBF roomID msg) <;> rfl
  · intro payload hp
    have hpay : payload = marshalEnvelope w.shortBF roomID msg := by
      cases hprod : w.producer w.published (marshalEnvelope w.shortBF roomID msg) <;>
        simpa [hprod] using hp
    subst hpay
    have hj := jsonObject_marshalEnvelope w.shortBF roomID msg
    have hu := unmarshal_marshalEnvelope w.shortBF roomID msg
    refine ⟨hj, hu, fun hr hm => ?_⟩
    rw [hj, hu, (toValidUTF8_eq_self roomID).mpr hr, (toValidUTF8_eq_self msg).mpr hm]
    exact ⟨rfl, rfl⟩
  · cases w.shortBF <;> decide

/-- An instance of C6 as amended: room "general" and payload "hi" are valid UTF-8, and the
envelope published for them has the two members `message` = "hi" and `room_id` =
"general". -/
theorem local_publish_witness :
    Valid general = true ∧ Valid hi = true ∧
    jsonObject (marshalEnvelope true general hi) =
      some [(asciiBytes "message", hi), (asciiBytes "room_id", general)] :=
  ⟨by decide, by decide,
    (((local_publish (NewHub okProducer true) general hi).2.2.2.2.2.2.1
      (marshalEnvelope true general hi) (by decide)).2.2 (by decide) (by decide)).1⟩

/-- C6 as stated fails. For the room id of one byte 0xFF and payload "hi" the one envelope
published has `room_id` = U+FFFD, three bytes that are not the room id; and for room
"general" and the payload of one byte 0xFF it has `message` = U+FFFD, not the payload. -/
theorem local_publish_field_differs_on_invalid_utf8 :
    (step (NewHub okProducer true) (BroadcastToRoom [0xFF] hi)).actions =
      [.publish (marshalEnvelope true [0xFF] hi)] ∧
    jsonObject (marshalEnvelope true [0xFF] hi) =
      some [(asciiBytes "message", hi), (asciiBytes "room_id", [0xEF, 0xBF, 0xBD])] ∧
    jsonObject (marshalEnvelope true [0xFF] hi) ≠
      some [(asciiBytes "message", hi), (asciiBytes "room_id", [0xFF])] ∧
    (step (NewHub okProducer true) (BroadcastToRoom general [0xFF])).actions =
      [.publish (marshalEnvelope true general [0xFF])] ∧
    jsonObject (marshalEnvelope true general [0xFF]) =
      some [(asciiBytes "message", [0xEF, 0xBF, 0xBD]), (asciiBytes "room_id", general)] ∧
    jsonObject (marshalEnvelope false [0xFF] hi) =
      some [(asciiBytes "message", hi), (asciiBytes "room_id", [0xEF, 0xBF, 0xBD])] := by
  decide

/-- C7 as amended, envelope round trip. The envelope `Hub.Run` publishes for the Local
event of `roomID` and `msg` is decoded by `Consumer.ConsumeMessages` without error, into
the External event of `roomID` and `msg` coerced to valid UTF-8: every byte that is not
part of valid UTF-8 is replaced by U+FFFD. The coercion leaves a string as it is exactly
when the string is valid UTF-8. So when the room id and the payload are valid UTF-8 the
External event has the same room id and the same payload, byte for byte; processed by a
hub where `c` is a member of that room with room in its open queue, it appends exactly
the payload to the queue of `c`. -/
theorem envelope_round_trip (w : Hub) (roomID msg : Bytes) :
    (step w (BroadcastToRoom roomID msg)).actions.filter isPublish =
      [.publish (marshalEnvelope w.shortBF roomID msg)] ∧
    consumeMessage (marshalEnvelope w.shortBF roomID msg) =
      .forwarded (BroadcastLocal (toValidUTF8 roomID) (toValidUTF8 msg)) ∧
    (toValidUTF8 roomID = roomID ↔ Valid roomID = true) ∧
    (toValidUTF8 msg = msg ↔ Valid msg = true) ∧
    (Valid roomID = true → Valid msg = true →
      consumeMessage (marshalEnvelope w.shortBF roomID msg) =
        .forwarded (BroadcastLocal roomID msg) ∧
      ∀ (w2 : Hub) (room : Room) (c : Client), w2.rooms roomID = some room →
        room.clients.Nodup → (∀ x ∈ room.clients, (w2.send x).closed = false) →
        c ∈ room.clients → (w2.send c).buf.length < (w2.send c).cap →
        (step w2 (BroadcastLocal roomID msg)).world.send c =
          { w2.send c with buf := (w2.send c).buf ++ [msg] }) := by
  have hu := unmarshal_marshalEnvelope w.shortBF roomID msg
  have hc : consumeMessage (marshalEnvelope w.shortBF roomID msg) =
      .forwarded (BroadcastLocal (toValidUTF8 roomID) (toValidUTF8 msg)) := by
    simp only [consumeMessage, hu]
  refine ⟨?_, hc, toValidUTF8_eq_self roomID, toValidUTF8_eq_self msg, fun hr hm => ⟨?_, ?_⟩⟩
  · simp only [BroadcastToRoom, step_local]
    cases w.producer w.published (marshalEnvelope w.shortBF roomID msg) <;> simp [isPublish]
  · rw [hc, (toValidUTF8_eq_self roomID).mpr hr, (toValidUTF8_eq_self msg).mpr hm]
  · intro w2 room c hroom hnd hopen hcm hlt
    obtain ⟨-, h2, -⟩ := step_external_open w2 roomID msg room hroom hnd hopen
    simp only [BroadcastLocal, h2 c]
    simp [hcm, Chan.full, hlt, Chan.push]

/-- An instance of C7 as amended: room "general" and payload "hi" are valid UTF-8 and come
back as they are. -/
theorem envelope_round_trip_witness :
    Valid general = true ∧ Valid hi = true ∧
    consumeMessage (marshalEnvelope true general hi) = .forwarded (BroadcastLocal general hi) :=
  ⟨by decide, by decide,
    ((envelope_round_trip (NewHub okProducer true) general hi).2.2.2.2 (by decide) (by decide)).1⟩

/-- C7 as stated fails. The payload of one byte 0xFF is published in an envelope that
`Consumer.ConsumeMessages` decodes into the External event with the three bytes of
U+FFFD in its place, whichever way backspace is escaped; and the room id of one byte 0xFF
comes back as another room id. -/
theorem envelope_round_trip_fails_on_invalid_utf8 :
    (step (NewHub okProducer true) (BroadcastToRoom general [0xFF])).actions =
      [.publish (marshalEnvelope true general [0xFF])] ∧
    consumeMessage (marshalEnvelope true general [0xFF]) =
      .forwarded (BroadcastLocal general [0xEF, 0xBF, 0xBD]) ∧
    consumeMessage (marshalEnvelope false general [0xFF]) =
      .forwarded (BroadcastLocal general [0xEF, 0xBF, 0xBD]) ∧
    consumeMessage (marshalEnvelope true general [0xFF]) ≠
      .forwarded (BroadcastLocal general [0xFF]) ∧
    consumeMessage (marshalEnvelope true [0xFF] hi) =
      .forwarded (BroadcastLocal [0xEF, 0xBF, 0xBD] hi) ∧
    consumeMessage (marshalEnvelope true [0xFF] hi) ≠ .forwarded (BroadcastLocal [0xFF] hi) := by
  decide

end CodeCollab
